import Mathlib

/-!
Shallow embedding of `src/dppy/finite_dpps/projection_kernel_sampler.py`
(and the pieces of `src/dppy/utils.py` it uses), together with proofs about
the three projection-kernel DPP samplers (Cholesky, Gram-Schmidt,
Schur/Woodbury) and the dispatch layer.

Conventions of the embedding:
* numpy float arrays are modelled in exact arithmetic; the definitions are
  stated over an arbitrary `LinearOrderedField` (so that they remain
  executable) with `np.sqrt` passed as an explicit function, and every
  theorem instantiates them at `ℝ` with `Real.sqrt`; the complex-dtype
  behaviour of the Gram-Schmidt coefficient update is modelled over `ℂ`
  separately where a claim is about complex kernels;
* the kernel is a square matrix `Matrix (Fin N) (Fin N) F`;
* `rng.choice(candidates, p=weights)` is modelled by an oracle
  `choose : ℕ → Fin N` giving the index drawn at each step; a run is
  *valid* when each drawn index lies in the candidate set and has nonzero
  weight (an index of weight zero is never produced by a weighted draw);
* `np.rint(np.trace(K)).astype(int)` is modelled by `round (Matrix.trace K) : ℤ`;
* a failed `assert` / `raise ValueError` is modelled by `Except.error`.
-/

namespace DPPy

open Finset Matrix

/-- Errors surfaced by the sampler layer: a failed `assert`, or a
`raise ValueError`. -/
inductive SErr : Type
  | assertionError : SErr
  | valueError : SErr
deriving DecidableEq

variable {F : Type*} [LinearOrderedField F]

/-- `rank = np.rint(np.trace(K)).astype(int)` (lines 90, 177, 237). -/
def kernelRank {N : ℕ} [FloorRing F] (K : Matrix (Fin N) (Fin N) F) : ℤ :=
  round (Matrix.trace K)

/-- The kernel satisfies the reproducing property `K² = K`. -/
def IsProjKernel {N : ℕ} (K : Matrix (Fin N) (Fin N) F) : Prop :=
  K * K = K

/-- The kernel is real Hermitian, i.e. symmetric. -/
def IsSymKernel {N : ℕ} (K : Matrix (Fin N) (Fin N) F) : Prop :=
  Kᵀ = K

/-! ### Gram-Schmidt sampler (`orthogonal_projection_kernel_sampler_GS`, lines 147-202) -/

/-- Internal state of the Gram-Schmidt sampler: the boolean mask `rem` of
remaining indices, the `sample` array (`samp it` = index selected at step
`it`), the residual squared-norm vector `norm_2`, and the coefficient
matrix `c` (column `t` is filled at step `t`). -/
structure GSState (N : ℕ) (F : Type*) where
  rem : Finset (Fin N)
  samp : ℕ → Fin N
  norm2 : Fin N → F
  c : Fin N → ℕ → F

/-- Initial GS state (lines 182-187): all indices remaining,
`norm_2 = K.diagonal().real`, `c = 0`. -/
def gsInit {N : ℕ} [NeZero N] (K : Matrix (Fin N) (Fin N) F) : GSState N F :=
  ⟨Finset.univ, fun _ => 0, fun r => K r r, fun _ _ => 0⟩

/-- One iteration of the GS loop (lines 189-199) at step `it` with drawn
index `j`: record `j`, remove it from `rem`, and unless `it = size - 1`
form the new coefficient column
`c[rem, it] = (K[rem, j] - c[rem, :it].dot(c[j, :it])) / sqrt(norm_2[j])`
and deflate `norm_2[rem] -= c[rem, it] ** 2` (real dtype). -/
def gsStep {N : ℕ} (sqrt : F → F) (K : Matrix (Fin N) (Fin N) F) (size : ℕ)
    (st : GSState N F) (it : ℕ) (j : Fin N) : GSState N F :=
  let rem' := st.rem.erase j
  let samp' := Function.update st.samp it j
  if it = size - 1 then ⟨rem', samp', st.norm2, st.c⟩
  else
    let cnew : Fin N → F := fun r =>
      (K r j - ∑ t ∈ Finset.range it, st.c r t * st.c j t) / sqrt (st.norm2 j)
    let c' : Fin N → ℕ → F := fun r s => if s = it ∧ r ∈ rem' then cnew r else st.c r s
    let norm2' : Fin N → F := fun r =>
      if r ∈ rem' then st.norm2 r - (c' r it) ^ 2 else st.norm2 r
    ⟨rem', samp', norm2', c'⟩

/-- The GS state at the start of step `n` of the loop, for the oracle
`choose`. -/
def gsRun {N : ℕ} [NeZero N] (sqrt : F → F) (K : Matrix (Fin N) (Fin N) F)
    (size : ℕ) (choose : ℕ → Fin N) : ℕ → GSState N F
  | 0 => gsInit K
  | n + 1 => gsStep sqrt K size (gsRun sqrt K size choose n) n (choose n)

/-- A GS run is valid when every drawn index is a remaining candidate of
nonzero weight `|norm_2[j]| / (rank - it)` — i.e. `norm_2 j ≠ 0`. -/
def gsValid {N : ℕ} [NeZero N] (sqrt : F → F) (K : Matrix (Fin N) (Fin N) F)
    (size : ℕ) (choose : ℕ → Fin N) : Prop :=
  ∀ it < size, choose it ∈ (gsRun sqrt K size choose it).rem ∧
    (gsRun sqrt K size choose it).norm2 (choose it) ≠ 0

/-- `sample.tolist()` (line 202): the `size` recorded indices, in selection
order. -/
def gsSample {N : ℕ} [NeZero N] (sqrt : F → F) (K : Matrix (Fin N) (Fin N) F)
    (size : ℕ) (choose : ℕ → Fin N) : List (Fin N) :=
  (List.range size).map fun n => (gsRun sqrt K size choose size).samp n

/-- The full GS sampler (lines 174-202): resolve the default
`size = rank`, `assert size <= rank`, then run the chain-rule loop. -/
def gsSampler {N : ℕ} [NeZero N] [FloorRing F] (sqrt : F → F)
    (K : Matrix (Fin N) (Fin N) F) (size : Option ℕ) (choose : ℕ → Fin N) :
    Except SErr (List (Fin N)) :=
  let rank := kernelRank K
  let sizeVal : ℤ := size.elim rank fun m => (m : ℤ)
  if sizeVal ≤ rank then Except.ok (gsSample sqrt K sizeVal.toNat choose)
  else Except.error SErr.assertionError

/-! ### Schur / Woodbury sampler (`projection_kernel_sampler_Schur`, lines 205-289) -/

/-- Internal state of the Schur sampler: remaining mask, sample array,
Schur-complement vector, and the inverse Gram block `K1` (`K1 a b` for
`a b < it` once `it` indices have been selected). -/
structure SchurState (N : ℕ) (F : Type*) where
  rem : Finset (Fin N)
  samp : ℕ → Fin N
  schur : Fin N → F
  K1 : ℕ → ℕ → F

/-- Initial Schur state (lines 242-247): `schur = K.diagonal().real`,
`K1 = 0`. -/
def schurInit {N : ℕ} [NeZero N] (K : Matrix (Fin N) (Fin N) F) : SchurState N F :=
  ⟨Finset.univ, fun _ => 0, fun r => K r r, fun _ _ => 0⟩

/-- Modelled from the spec: `inner1d` is imported from `dppy.utils` at line 2
but is absent from the sources under `src/`; per spec §4.4 step 3 the
update at line 286 computes, for each remaining index `r`,
`schur[r] = K[r,r] - K[r,Y] · K1[Y,Y] · K[Y,r]` over the selected set `Y`.
This definition is that quadratic form `K[r,Y] · K1[Y,Y] · K[Y,r]`. -/
def schurQuad {N : ℕ} (K : Matrix (Fin N) (Fin N) F) (samp : ℕ → Fin N)
    (K1 : ℕ → ℕ → F) (it : ℕ) (r : Fin N) : F :=
  ∑ a ∈ Finset.range it, ∑ b ∈ Finset.range it,
    K r (samp a) * K1 a b * K (samp b) r

/-- One iteration of the Schur loop (lines 249-286) at step `it` with drawn
index `j`. The `if/elif/elif/else` chain updates the inverse Gram block:
`it = 0` sets `K1[0,0] = 1/K[j,j]`; `it = 1` stores the closed-form
`[[K[j,j], -K[j,i]], [-K[j,i], K[i,i]]] / (K[i,i]K[j,j] - K[j,i]²)`;
`2 ≤ it < size - 1` performs the Woodbury bordered update; otherwise
(`2 ≤ it = size - 1`) the loop `break`s, skipping both the inverse and the
Schur-complement updates. -/
def schurStep {N : ℕ} (K : Matrix (Fin N) (Fin N) F) (size : ℕ)
    (st : SchurState N F) (it : ℕ) (j : Fin N) : SchurState N F :=
  let rem' := st.rem.erase j
  let samp' := Function.update st.samp it j
  if 2 ≤ it ∧ ¬ it < size - 1 then ⟨rem', samp', st.schur, st.K1⟩
  else
    let K1' : ℕ → ℕ → F :=
      if it = 0 then
        fun a b => if a = 0 ∧ b = 0 then 1 / K j j else st.K1 a b
      else if it = 1 then
        let i := samp' 0
        let det := K i i * K j j - K j i ^ 2
        fun a b =>
          if a = 0 ∧ b = 0 then K j j / det
          else if a = 0 ∧ b = 1 then -(K j i) / det
          else if a = 1 ∧ b = 0 then -(K j i) / det
          else if a = 1 ∧ b = 1 then K i i / det
          else st.K1 a b
      else
        let tmp1 : ℕ → F := fun a => ∑ b ∈ Finset.range it, st.K1 a b * K (samp' b) j
        let schur_j : F := K j j - ∑ b ∈ Finset.range it, K j (samp' b) * tmp1 b
        let tmp2 : ℕ → F := fun b =>
          (∑ a ∈ Finset.range it, K j (samp' a) * st.K1 a b) / schur_j
        fun a b =>
          if a < it ∧ b < it then st.K1 a b + tmp1 a * tmp2 b
          else if a < it ∧ b = it then -(tmp1 a) / schur_j
          else if a = it ∧ b < it then -(tmp2 b)
          else if a = it ∧ b = it then 1 / schur_j
          else st.K1 a b
    let schur' : Fin N → F := fun r =>
      if r ∈ rem' then K r r - schurQuad K samp' K1' (it + 1) r else st.schur r
    ⟨rem', samp', schur', K1'⟩

/-- The Schur-sampler state at the start of step `n`. -/
def schurRun {N : ℕ} [NeZero N] (K : Matrix (Fin N) (Fin N) F) (size : ℕ)
    (choose : ℕ → Fin N) : ℕ → SchurState N F
  | 0 => schurInit K
  | n + 1 => schurStep K size (schurRun K size choose n) n (choose n)

/-- A Schur run is valid when every drawn index is a remaining candidate of
nonzero weight `|schur[j]| / (rank - it)`. -/
def schurValid {N : ℕ} [NeZero N] (K : Matrix (Fin N) (Fin N) F) (size : ℕ)
    (choose : ℕ → Fin N) : Prop :=
  ∀ it < size, choose it ∈ (schurRun K size choose it).rem ∧
    (schurRun K size choose it).schur (choose it) ≠ 0

/-- `sample.tolist()` (line 289). -/
def schurSample {N : ℕ} [NeZero N] (K : Matrix (Fin N) (Fin N) F) (size : ℕ)
    (choose : ℕ → Fin N) : List (Fin N) :=
  (List.range size).map fun n => (schurRun K size choose size).samp n

/-- The full Schur sampler (lines 235-289). -/
def schurSampler {N : ℕ} [NeZero N] [FloorRing F] (K : Matrix (Fin N) (Fin N) F)
    (size : Option ℕ) (choose : ℕ → Fin N) : Except SErr (List (Fin N)) :=
  let rank := kernelRank K
  let sizeVal : ℤ := size.elim rank fun m => (m : ℤ)
  if sizeVal ≤ rank then Except.ok (schurSample K sizeVal.toNat choose)
  else Except.error SErr.assertionError

/-! ### Cholesky sampler (`orthogonal_projection_kernel_sampler_Chol`, lines 57-144) -/

/-- The Hermitian swap of rows/columns `j` and `t` (lines 106-122),
parameterised by the entry-wise conjugation `conj` (`np.conj`) and
real-part extraction `re` (`.real`) so that it can be instantiated over
a real scalar type (`id`, `id`) and over `ℂ`.  The five sub-swaps (bottom,
inner, corner, diagonal, left) are applied in the code's order; each numpy
fancy-indexed assignment evaluates its right-hand side (and the explicit
`tmp` buffer) before writing. -/
def hermitianSwap {N : ℕ} {α : Type*} (conj re : α → α)
    (A : Matrix (Fin N) (Fin N) α) (j t : Fin N) : Matrix (Fin N) (Fin N) α :=
  -- bottom swap: A[t+1:, [j,t]] = A[t+1:, [t,j]]
  let B1 : Matrix (Fin N) (Fin N) α := Matrix.of fun p q =>
    if t < p ∧ q = j then A p t
    else if t < p ∧ q = t then A p j
    else A p q
  -- inner swap: tmp = A[j+1:t, j];  A[j+1:t, j] = conj(A[t, j+1:t]);  A[t, j+1:t] = conj(tmp)
  let B2 : Matrix (Fin N) (Fin N) α := Matrix.of fun p q =>
    if q = j ∧ j < p ∧ p < t then conj (B1 t p)
    else if p = t ∧ j < q ∧ q < t then conj (B1 q j)
    else B1 p q
  -- corner swap: A[t, j] = conj(A[t, j])
  let B3 : Matrix (Fin N) (Fin N) α := Matrix.of fun p q =>
    if p = t ∧ q = j then conj (B2 t j) else B2 p q
  -- diagonal swap: A[[j,t],[j,t]] = A[[t,j],[t,j]].real
  let B4 : Matrix (Fin N) (Fin N) α := Matrix.of fun p q =>
    if p = j ∧ q = j then re (B3 t t)
    else if p = t ∧ q = t then re (B3 j j)
    else B3 p q
  -- left swap: A[[j,t], :j] = A[[t,j], :j]
  Matrix.of fun p q =>
    if q < j ∧ p = j then B4 t q
    else if q < j ∧ p = t then B4 j q
    else B4 p q

/-- Internal state of the Cholesky sampler: the live matrix copy `A`, the
diagonal residual vector `d`, and the permuted ground-set array, kept as a
permutation `g` of positions (it starts as `arange(N)` and is only ever
composed with transpositions). -/
structure CholState (N : ℕ) (F : Type*) where
  A : Matrix (Fin N) (Fin N) F
  d : Fin N → F
  g : Equiv.Perm (Fin N)

/-- Initial Cholesky state (lines 95-99): `A = K.copy()`,
`d = A.diagonal().real`, `ground_set = arange(N)`. -/
def cholInit {N : ℕ} (K : Matrix (Fin N) (Fin N) F) : CholState N F :=
  ⟨K, fun r => K r r, 1⟩

/-- The matrix after the Hermitian swap and the pivot write
`A[j, j] = np.sqrt(d[j])` (line 128; `d` has already been swapped, so
`d[j]` is `st.d (swap jpos t jpos)`). -/
def cholPivotA {N : ℕ} (sqrt : F → F) (st : CholState N F) (jpos t : Fin N) :
    Matrix (Fin N) (Fin N) F :=
  Matrix.of fun p q =>
    if p = jpos ∧ q = jpos then sqrt (st.d (Equiv.swap jpos t jpos))
    else hermitianSwap id id st.A jpos t p q

/-- The new-column update (lines 134-136):
`A[j+1:, j] = (A[j+1:, j] - A[j+1:, :j].dot(A[j, :j].conj())) / A[j, j]`
(real dtype: `conj = id`). -/
def cholColUpdate {N : ℕ} (A2 : Matrix (Fin N) (Fin N) F) (jpos : Fin N) :
    Matrix (Fin N) (Fin N) F :=
  Matrix.of fun p q =>
    if jpos < p ∧ q = jpos then
      (A2 p jpos - ∑ s ∈ Finset.univ.filter (fun s : Fin N => s < jpos),
        A2 p s * A2 jpos s) / A2 jpos jpos
    else A2 p q

/-- One iteration of the Cholesky loop (lines 101-140) at pivot position
`jpos` with drawn position `t`: Hermitian swap of positions `jpos` and `t`
in `A` (real dtype: `conj = id`, `.real = id`), swap of `ground_set` and
`d`, pivot write `A[j,j] = sqrt(d[j])`; then, unless `jpos = size - 1`
(where the loop `break`s), the new-column update and the diagonal
deflation `d[j+1:] -= A[j+1:, j] ** 2` (real dtype branch of the
`iscomplexobj` test; the complex branch subtracts the same value
`re² + im²`). -/
def cholStep {N : ℕ} (sqrt : F → F) (size : ℕ)
    (st : CholState N F) (jpos t : Fin N) : CholState N F :=
  let g' := st.g * Equiv.swap jpos t
  let d1 : Fin N → F := fun p => st.d (Equiv.swap jpos t p)
  let A2 := cholPivotA sqrt st jpos t
  if (jpos : ℕ) = size - 1 then ⟨A2, d1, g'⟩
  else
    let A3 := cholColUpdate A2 jpos
    let d2 : Fin N → F := fun p => if jpos < p then d1 p - (A3 p jpos) ^ 2 else d1 p
    ⟨A3, d2, g'⟩

/-- The Cholesky state at the start of step `n` of the loop
(`for j in range(size)`); positions are `Fin N`, so a step is taken only
while `n < N` (in the code, `size ≤ N` whenever the loop is reachable). -/
def cholRun {N : ℕ} (sqrt : F → F) (K : Matrix (Fin N) (Fin N) F) (size : ℕ)
    (choose : ℕ → Fin N) : ℕ → CholState N F
  | 0 => cholInit K
  | n + 1 =>
    if h : n < N then
      cholStep sqrt size (cholRun sqrt K size choose n) ⟨n, h⟩ (choose n)
    else cholRun sqrt K size choose n

/-- A Cholesky run is valid when every drawn pivot position `t` lies in the
un-pivoted suffix `{j, ..., N-1}` and has nonzero weight
`|d[t]| / (rank - j)`. -/
def cholValid {N : ℕ} (sqrt : F → F) (K : Matrix (Fin N) (Fin N) F) (size : ℕ)
    (choose : ℕ → Fin N) : Prop :=
  ∀ it < size, it ≤ ((choose it) : ℕ) ∧
    (cholRun sqrt K size choose it).d (choose it) ≠ 0

/-- `ground_set[:size].tolist()` (line 142): the first `size` entries of the
permuted ground-set array (numpy slicing clips at `N`). -/
def cholSample {N : ℕ} (sqrt : F → F) (K : Matrix (Fin N) (Fin N) F) (size : ℕ)
    (choose : ℕ → Fin N) : List (Fin N) :=
  ((List.finRange N).map fun p => (cholRun sqrt K size choose size).g p).take size

/-- The full Cholesky sampler (lines 88-144). -/
def cholSampler {N : ℕ} [FloorRing F] (sqrt : F → F) (K : Matrix (Fin N) (Fin N) F)
    (size : Option ℕ) (choose : ℕ → Fin N) : Except SErr (List (Fin N)) :=
  let rank := kernelRank K
  let sizeVal : ℤ := size.elim rank fun m => (m : ℤ)
  if sizeVal ≤ rank then Except.ok (cholSample sqrt K sizeVal.toNat choose)
  else Except.error SErr.assertionError

/-! ### Dispatch layer (`projection_kernel_sampler` and the two `select_*` functions, lines 5-54) -/

/-- The three sampling routines, as selectable values. -/
inductive SamplerKind : Type
  | GS : SamplerKind
  | Chol : SamplerKind
  | Schur : SamplerKind
deriving DecidableEq

/-- The mode string `"GS"`. -/
def modeGS : String := "GS"

/-- The mode string `"Chol"`. -/
def modeChol : String := "Chol"

/-- The mode string `"Schur"`. -/
def modeSchur : String := "Schur"

/-- `select_generic_projection_kernel_sampler` (lines 29-38): the dict holds
only the Schur sampler, and `samplers.get(mode, default)` falls back to it
for every mode. -/
def selectGenericProjectionKernelSampler (mode : Option String) : SamplerKind :=
  if mode = some modeSchur then SamplerKind.Schur else SamplerKind.Schur

/-- `select_orthogonal_projection_kernel_sampler` (lines 41-54):
`{"GS", "Chol", "Schur"}` with default `GS` for any other key (including a
missing mode). -/
def selectOrthogonalProjectionKernelSampler (mode : Option String) : SamplerKind :=
  if mode = some modeGS then SamplerKind.GS
  else if mode = some modeChol then SamplerKind.Chol
  else if mode = some modeSchur then SamplerKind.Schur
  else SamplerKind.GS

/-- The kernel representation owned by the DPP object. -/
inductive KernelType : Type
  | likelihood : KernelType
  | correlation : KernelType
deriving DecidableEq

/-- The slice of the upstream DPP object read by
`projection_kernel_sampler`: its kernel-type and Hermitian flags, the
`projection` flag it asserts, and the (lazily materialised, here
already-computed) kernel matrices `L` and `K`. -/
structure DPPModel (N : ℕ) (F : Type*) where
  kernelType : KernelType
  hermitian : Bool
  projection : Bool
  L : Matrix (Fin N) (Fin N) F
  K : Matrix (Fin N) (Fin N) F

/-- Python truthiness of the optional `size` parameter: `not size` is true
for a missing size and for `size = 0`. -/
def sizeFalsy : Option ℕ → Bool
  | none => true
  | some n => n = 0

/-- `projection_kernel_sampler` (lines 5-26): assert `dpp.projection`; for a
likelihood kernel a truthy `size` is mandatory (`raise ValueError`)
and the kernel is `L`, otherwise the kernel is `K`; then dispatch on the
Hermitian flag and mode and run the selected sampler. -/
def projectionKernelSampler {N : ℕ} [NeZero N] [FloorRing F] (sqrt : F → F)
    (dpp : DPPModel N F) (size : Option ℕ) (mode : Option String)
    (choose : ℕ → Fin N) : Except SErr (List (Fin N)) :=
  if ¬ dpp.projection then Except.error SErr.assertionError
  else if dpp.kernelType = KernelType.likelihood ∧ sizeFalsy size then
    Except.error SErr.valueError
  else
    let kernel := match dpp.kernelType with
      | KernelType.likelihood => dpp.L
      | KernelType.correlation => dpp.K
    let sampler := if dpp.hermitian then selectOrthogonalProjectionKernelSampler mode
      else selectGenericProjectionKernelSampler mode
    match sampler with
    | SamplerKind.GS => gsSampler sqrt kernel size choose
    | SamplerKind.Chol => cholSampler sqrt kernel size choose
    | SamplerKind.Schur => schurSampler kernel size choose

/-! ### The complex-dtype Gram-Schmidt coefficient (for the complex-kernel claim) -/

/-- The Gram-Schmidt coefficient formed at step `it = 0` for a complex
kernel (lines 196-197 with `it = 0`):
`c[r, 0] = (K[r, j] - c[r, :0].dot(c[j, :0])) / np.sqrt(norm_2[j])`, where
the empty dot product is `0` and `norm_2 = K.diagonal().real`. -/
noncomputable def gsCoefZeroC {N : ℕ} (K : Matrix (Fin N) (Fin N) ℂ) (j r : Fin N) : ℂ :=
  (K r j - 0) / ((Real.sqrt (K j j).re : ℝ) : ℂ)

/-! ### Concrete instances used when settling the claims -/

/-- A mode string that is not one of `"GS"`, `"Chol"`, `"Schur"`. -/
def modeOther : String := "banana"

/-- A likelihood-type projection DPP over a one-point ground set. -/
def dppLik : DPPModel 1 ℝ :=
  ⟨KernelType.likelihood, true, true, 1, 1⟩

/-- The rank-one projection kernel `K = v·vᵀ` with `v = [1,0,0]ᵀ`, `N = 3`. -/
def rankOneK : Matrix (Fin 3) (Fin 3) ℝ :=
  Matrix.of fun r c => (if r = 0 then (1 : ℝ) else 0) * (if c = 0 then (1 : ℝ) else 0)

/-- A non-Hermitian projection kernel (`K² = K`, `Kᵀ ≠ K`) with trace `2`
and a negative diagonal entry. -/
def obliqueK : Matrix (Fin 3) (Fin 3) ℝ :=
  Matrix.of ![![0, 2, -2], ![-1, 3, -2], ![-1, 2, -1]]

/-- A non-Hermitian projection kernel (`K² = K`, `Kᵀ ≠ K`) with nonnegative
diagonal `(1/2, 1/2, 1)` and trace `2`, on which the Schur sampler's
per-step weights are genuine probabilities. -/
noncomputable def skewProjK : Matrix (Fin 3) (Fin 3) ℝ :=
  Matrix.of ![![1/2, -1/2, 0], ![-1/2, 1/2, 0], ![-1, -1, 1]]

/-- The drawn-index oracle selecting index `0`, then index `2`. -/
def skewChoose : ℕ → Fin 3 := fun n => if n = 0 then 0 else 2

/-- The 2×2 Gram block `[[K[i,i], K[i,j]], [K[j,i], K[j,j]]]` of a kernel at
indices `i`, `j`. -/
def gramBlock {N : ℕ} (K : Matrix (Fin N) (Fin N) ℝ) (i j : Fin N) :
    Matrix (Fin 2) (Fin 2) ℝ :=
  Matrix.of ![![K i i, K i j], ![K j i, K j j]]

/-- The 2×2 block `K1[:2, :2]` stored by the Schur sampler's state. -/
def storedBlock {N : ℕ} (st : SchurState N ℝ) : Matrix (Fin 2) (Fin 2) ℝ :=
  Matrix.of fun a b => st.K1 (a : ℕ) (b : ℕ)

/-- A complex Hermitian projection kernel (`K² = K`, `Kᴴ = K`) of rank `2`
with a genuinely complex entry: `I₃ - u u*` for `u = (1, i, 0)ᵀ/√2`. -/
noncomputable def cplxProjK : Matrix (Fin 3) (Fin 3) ℂ :=
  Matrix.of ![![1/2, Complex.I/2, 0], ![-Complex.I/2, 1/2, 0], ![0, 0, 1]]

/-- A concrete complex Hermitian matrix for exercising the Hermitian swap. -/
def hermA : Matrix (Fin 2) (Fin 2) ℂ :=
  Matrix.of ![![1, Complex.I], ![-Complex.I, 2]]

/-! ### Abstract Schur-complement chain (analysis definitions)

These definitions are the mathematical yardstick against which the three
samplers' incremental states are measured: one exact rank-one
Schur-complement (conditioning) step, the chain of such steps along a
pivot sequence, and the unit-pivot column vector it produces. -/

/-- One exact Schur-complement step on `S` at pivot `j`:
`S' = S - S[:,j] S[j,:] / S[j,j]`. -/
noncomputable def schurStepM {N : ℕ} (S : Matrix (Fin N) (Fin N) ℝ) (j : Fin N) :
    Matrix (Fin N) (Fin N) ℝ :=
  Matrix.of fun r q => S r q - S r j * S j q / S j j

/-- The chain of exact Schur-complement steps of `K` along the pivot
sequence `ps`. -/
noncomputable def schurChain {N : ℕ} (K : Matrix (Fin N) (Fin N) ℝ)
    (ps : ℕ → Fin N) : ℕ → Matrix (Fin N) (Fin N) ℝ
  | 0 => K
  | n + 1 => schurStepM (schurChain K ps n) (ps n)

/-- The normalised pivot column produced at step `t` of the chain. -/
noncomputable def uVec {N : ℕ} (K : Matrix (Fin N) (Fin N) ℝ)
    (ps : ℕ → Fin N) (t : ℕ) : Fin N → ℝ :=
  fun r => schurChain K ps t r (ps t) / Real.sqrt (schurChain K ps t (ps t) (ps t))

/-- The pivot *index* selected by the Cholesky sampler at step `n`: the
value `ground_set[n]` right after step `n` ran (positions `< n+1` are never
moved by later steps of a valid run). -/
def cholPiv {N : ℕ} [NeZero N] (sqrt : F → F) (K : Matrix (Fin N) (Fin N) F)
    (size : ℕ) (choose : ℕ → Fin N) (n : ℕ) : Fin N :=
  if h : n < N then (cholRun sqrt K size choose (n + 1)).g ⟨n, h⟩ else 0

/-! ## Claim analyses: the dispatch layer -/

/-- C8: for every mode string, the non-Hermitian dispatcher returns the
Schur sampler (never GS or Chol, never an error), and the Hermitian
dispatcher maps `"GS"`, `"Chol"`, `"Schur"` to the samplers of those names
and any other mode to the default GS sampler, never erroring. -/
theorem C8_mode_dispatch (mode : Option String) :
    selectGenericProjectionKernelSampler mode = SamplerKind.Schur ∧
    selectOrthogonalProjectionKernelSampler (some modeGS) = SamplerKind.GS ∧
    selectOrthogonalProjectionKernelSampler (some modeChol) = SamplerKind.Chol ∧
    selectOrthogonalProjectionKernelSampler (some modeSchur) = SamplerKind.Schur ∧
    (mode ≠ some modeGS → mode ≠ some modeChol → mode ≠ some modeSchur →
      selectOrthogonalProjectionKernelSampler mode = SamplerKind.GS) := by
  refine ⟨?_, ?_, ?_, ?_, ?_⟩
  · unfold selectGenericProjectionKernelSampler
    split <;> rfl
  · simp [selectOrthogonalProjectionKernelSampler]
  · simp [selectOrthogonalProjectionKernelSampler, modeGS, modeChol]
  · simp [selectOrthogonalProjectionKernelSampler, modeGS, modeChol, modeSchur]
  · intro h1 h2 h3
    unfold selectOrthogonalProjectionKernelSampler
    simp [h1, h2, h3]

/-- Witness for C8 at the concrete unrecognised mode `"banana"`. -/
theorem C8_mode_dispatch_witness :
    (some modeOther ≠ some modeGS ∧ some modeOther ≠ some modeChol ∧
      some modeOther ≠ some modeSchur) ∧
    selectOrthogonalProjectionKernelSampler (some modeOther) = SamplerKind.GS ∧
    selectGenericProjectionKernelSampler (some modeOther) = SamplerKind.Schur := by
  have h1 : some modeOther ≠ some modeGS := by simp [modeOther, modeGS]
  have h2 : some modeOther ≠ some modeChol := by simp [modeOther, modeChol]
  have h3 : some modeOther ≠ some modeSchur := by simp [modeOther, modeSchur]
  exact ⟨⟨h1, h2, h3⟩, (C8_mode_dispatch (some modeOther)).2.2.2.2 h1 h2 h3,
    (C8_mode_dispatch (some modeOther)).1⟩

/-- C7: with a likelihood-type kernel and no size supplied,
`projection_kernel_sampler` raises its `ValueError` before any sampler is
selected or run. -/
theorem C7_likelihood_size_mandatory {N : ℕ} [NeZero N] (dpp : DPPModel N ℝ)
    (size : Option ℕ) (mode : Option String) (choose : ℕ → Fin N)
    (hproj : dpp.projection = true)
    (hker : dpp.kernelType = KernelType.likelihood) (hnone : size = none) :
    projectionKernelSampler Real.sqrt dpp size mode choose =
      Except.error SErr.valueError := by
  subst hnone
  simp [projectionKernelSampler, hproj, hker, sizeFalsy]

/-- Witness for C7: a concrete likelihood-type projection DPP with no size. -/
theorem C7_likelihood_size_mandatory_witness :
    dppLik.projection = true ∧ dppLik.kernelType = KernelType.likelihood ∧
    projectionKernelSampler Real.sqrt dppLik none none (fun _ => (0 : Fin 1)) =
      Except.error SErr.valueError :=
  ⟨rfl, rfl, C7_likelihood_size_mandatory dppLik none none _ rfl rfl rfl⟩

/-- C10: for a likelihood-type kernel, `size = 0` is rejected by the
`if not size` truthiness test with the same `ValueError` as a missing size. -/
theorem C10_size_zero_rejected {N : ℕ} [NeZero N] (dpp : DPPModel N ℝ)
    (mode : Option String) (choose : ℕ → Fin N)
    (hproj : dpp.projection = true)
    (hker : dpp.kernelType = KernelType.likelihood) :
    projectionKernelSampler Real.sqrt dpp (some 0) mode choose =
      Except.error SErr.valueError ∧
    projectionKernelSampler Real.sqrt dpp (some 0) mode choose =
      projectionKernelSampler Real.sqrt dpp none mode choose := by
  constructor <;> simp [projectionKernelSampler, hproj, hker, sizeFalsy]

/-- Witness for C10: a concrete likelihood-type projection DPP with
`size = 0`. -/
theorem C10_size_zero_rejected_witness :
    dppLik.projection = true ∧ dppLik.kernelType = KernelType.likelihood ∧
    projectionKernelSampler Real.sqrt dppLik (some 0) none (fun _ => (0 : Fin 1)) =
      Except.error SErr.valueError ∧
    projectionKernelSampler Real.sqrt dppLik (some 0) none (fun _ => (0 : Fin 1)) =
      projectionKernelSampler Real.sqrt dppLik none none (fun _ => (0 : Fin 1)) :=
  ⟨rfl, rfl, (C10_size_zero_rejected dppLik none _ rfl rfl).1,
    (C10_size_zero_rejected dppLik none _ rfl rfl).2⟩

/-- C6: with a requested `size` exceeding `round(trace(K))`, each of the
three samplers fails with its assertion error, for every kernel and every
random oracle (the result does not depend on `choose` and no run state is
built). -/
theorem C6_oversized_request {N : ℕ} [NeZero N] (K : Matrix (Fin N) (Fin N) ℝ)
    (m : ℕ) (choose : ℕ → Fin N) (h : kernelRank K < (m : ℤ)) :
    gsSampler Real.sqrt K (some m) choose = Except.error SErr.assertionError ∧
    cholSampler Real.sqrt K (some m) choose = Except.error SErr.assertionError ∧
    schurSampler K (some m) choose = Except.error SErr.assertionError := by
  have h' : ¬ ((m : ℤ) ≤ kernelRank K) := not_le.mpr h
  exact ⟨by simp [gsSampler, h'], by simp [cholSampler, h'], by simp [schurSampler, h']⟩

/-! ## The Hermitian swap -/

/-- Swapping a pivot with itself only touches the `[j, j]` entry, which
receives `re (conj (A j j))` (corner swap then diagonal swap). -/
theorem hermitianSwap_self {N : ℕ} {α : Type*} (conj re : α → α)
    (A : Matrix (Fin N) (Fin N) α) (j : Fin N) (p q : Fin N) :
    hermitianSwap conj re A j j p q =
      if p = j ∧ q = j then re (conj (A j j)) else A p q := by
  simp only [hermitianSwap, Matrix.of_apply]
  by_cases hpj : p = j <;> by_cases hqj : q = j
  · subst hpj; subst hqj
    simp [lt_irrefl]
  · subst hpj
    simp [hqj, lt_irrefl]
    exact fun h1 h2 => absurd h2 (asymm h1)
  · subst hqj
    simp [hpj, lt_irrefl]
    exact fun h1 h2 => absurd h2 (asymm h1)
  · simp [hpj, hqj]

theorem hermitianSwap_apply_lower {N : ℕ} {α : Type*} (conj re : α → α)
    (A : Matrix (Fin N) (Fin N) α) (j t : Fin N) (hjt : j < t)
    (p q : Fin N) (hqp : q ≤ p) :
    hermitianSwap conj re A j t p q =
      if p = q ∧ (p = j ∨ p = t) then re (A (Equiv.swap j t p) (Equiv.swap j t p))
      else if Equiv.swap j t q ≤ Equiv.swap j t p then
        A (Equiv.swap j t p) (Equiv.swap j t q)
      else conj (A (Equiv.swap j t q) (Equiv.swap j t p)) := by
  have hjt' : ¬ t < j := not_lt.mpr hjt.le
  have hjnet : j ≠ t := ne_of_lt hjt
  have htnej : t ≠ j := Ne.symm hjnet
  simp only [hermitianSwap, Matrix.of_apply]
  by_cases hqj : q < j
  · -- left region: columns < j
    have hqj' : q ≠ j := ne_of_lt hqj
    have hqt' : q < t := lt_trans hqj hjt
    have hqt : q ≠ t := ne_of_lt hqt'
    have hsq : Equiv.swap j t q = q := Equiv.swap_apply_of_ne_of_ne hqj' hqt
    by_cases hpj : p = j
    · rw [hpj]
      have hne : ¬ (j = q) := Ne.symm hqj'
      simp [hqj, hqj', hqt, hqt', hjt, hjt', hjnet, htnej, hne, lt_irrefl, hsq,
        Equiv.swap_apply_left, not_lt.mpr hqt'.le, hqt'.le, asymm hqj, asymm hqt',
        hqj.le.trans hjt.le]
    · by_cases hpt : p = t
      · rw [hpt]
        have hne : ¬ (t = q) := Ne.symm hqt
        simp [hqj, hqj', hqt, hqt', hjt, hjt', hjnet, htnej, hne, hpj, lt_irrefl, hsq,
          Equiv.swap_apply_right, asymm hqj, asymm hqt', hqj.le]
      · have hsp : Equiv.swap j t p = p := Equiv.swap_apply_of_ne_of_ne hpj hpt
        have h3 : ¬ (p = j ∨ p = t) := by rintro (h | h); exacts [hpj h, hpt h]
        simp [hqj, hqj', hqt, hpj, hpt, hqp, h3, hsq, hsp]
  · -- trailing region: columns ≥ j
    have hjq : j ≤ q := not_lt.mp hqj
    by_cases hd : p = q
    · -- diagonal entries
      by_cases hpj : p = j
      · have hqj2 : q = j := hpj ▸ hd.symm ▸ rfl
        rw [hpj, hqj2]
        simp [hjnet, htnej, hjt, hjt', lt_irrefl, Equiv.swap_apply_left]
      · by_cases hpt : p = t
        · have hqt2 : q = t := hpt ▸ hd.symm ▸ rfl
          rw [hpt, hqt2]
          simp [hjnet, htnej, hjt, hjt', lt_irrefl, hpj, Equiv.swap_apply_right]
        · have hq2 : q = p := hd.symm
          rw [hq2]
          have hsp : Equiv.swap j t p = p := Equiv.swap_apply_of_ne_of_ne hpj hpt
          simp [hpj, hpt, lt_irrefl, hsp, not_lt.mpr hjq, hqj]
    · -- strictly-lower trailing entries
      have hqp' : q < p := lt_of_le_of_ne hqp (fun h => hd h.symm)
      have hjp : j < p := lt_of_le_of_lt hjq hqp'
      have hpj : p ≠ j := ne_of_gt hjp
      by_cases hqeqj : q = j
      · rw [hqeqj]
        -- q = j, so the entry lies in column j with p > j
        by_cases hpt : p = t
        · rw [hpt]
          simp [hjnet, htnej, hjt, hjt', lt_irrefl, not_le.mpr hjt,
            Equiv.swap_apply_left, Equiv.swap_apply_right]
        · have hsp : Equiv.swap j t p = p := Equiv.swap_apply_of_ne_of_ne hpj hpt
          have hjp' : j < p := hqeqj ▸ hqp'
          by_cases hplt : p < t
          · simp [hpj, hpt, hjnet, htnej, hjt, hjt', hjp', hplt, hsp,
              not_lt.mpr hplt.le, not_le.mpr hplt, asymm hjp', lt_irrefl,
              Equiv.swap_apply_left]
          · have htp : t < p := lt_of_le_of_ne (not_lt.mp hplt) (Ne.symm hpt)
            simp [hpj, hpt, hjnet, htnej, hjt, hjt', hjp', hplt, htp, hsp,
              htp.le, asymm hjp', lt_irrefl, Equiv.swap_apply_left]
      · by_cases hqeqt : q = t
        · rw [hqeqt]
          -- q = t, so p > t and the entry lies in column t below the pivot block
          have htp : t < p := hqeqt ▸ hqp'
          have hpt : p ≠ t := ne_of_gt htp
          simp [hpj, hpt, hjnet, htnej, hjt, hjt', htp, lt_irrefl,
            not_lt.mpr hjt.le, hjt.le, asymm htp, asymm hjt, hjp.le,
            Equiv.swap_apply_right, Equiv.swap_apply_of_ne_of_ne hpj hpt]
        · have hjq' : j < q := lt_of_le_of_ne hjq (Ne.symm hqeqj)
          have hsq : Equiv.swap j t q = q := Equiv.swap_apply_of_ne_of_ne hqeqj hqeqt
          by_cases hpt : p = t
          · rw [hpt]
            have hqt2 : q < t := hpt ▸ hqp'
            simp [hpj, hqeqj, hqeqt, hjnet, htnej, hjt, hjt', hjq', hqt2, hsq,
              not_le.mpr hjq', lt_irrefl, asymm hqt2, asymm hjq', Ne.symm hqeqt,
              Equiv.swap_apply_right]
          · have hsp : Equiv.swap j t p = p := Equiv.swap_apply_of_ne_of_ne hpj hpt
            have h3 : ¬ (p = j ∨ p = t) := by rintro (h | h); exacts [hpj h, hpt h]
            simp [hd, hpj, hpt, hqeqj, hqeqt, h3, hqp, hqp', hsq, hsp, hqj]

/-- C3: for a Hermitian matrix `A` and pivot positions `j ≤ t`, the five
sub-swap operations (bottom, inner, corner, diagonal, left) produce, on
every entry the algorithm subsequently reads (the diagonal and the whole
lower triangle, hence in particular columns `0..j-1` of rows `j` and `t`),
exactly `P·A·Pᵀ` for the transposition `P = (j t)`; the diagonal stays
real, so Hermitian structure is preserved. -/
theorem C3_hermitian_swap_permutes {N : ℕ} (A : Matrix (Fin N) (Fin N) ℂ)
    (j t : Fin N) (hA : A.IsHermitian) (hjt : j ≤ t) :
    (∀ p q : Fin N, q ≤ p →
      hermitianSwap (starRingEnd ℂ) (fun z => ((z.re : ℝ) : ℂ)) A j t p q =
        A (Equiv.swap j t p) (Equiv.swap j t q)) ∧
    (∀ p : Fin N,
      (hermitianSwap (starRingEnd ℂ) (fun z => ((z.re : ℝ) : ℂ)) A j t p p).im = 0) := by
  have happ : ∀ p q, (starRingEnd ℂ) (A q p) = A p q := fun p q => hA.apply p q
  have hdiag : ∀ p, (A p p).im = 0 := fun p =>
    Complex.conj_eq_iff_im.mp (happ p p)
  have hre : ∀ p, (((A p p).re : ℝ) : ℂ) = A p p := fun p =>
    Complex.conj_eq_iff_re.mp (happ p p)
  have main : ∀ p q : Fin N, q ≤ p →
      hermitianSwap (starRingEnd ℂ) (fun z => ((z.re : ℝ) : ℂ)) A j t p q =
        A (Equiv.swap j t p) (Equiv.swap j t q) := by
    intro p q hqp
    rcases eq_or_lt_of_le hjt with hjt' | hjt'
    · subst hjt'
      rw [hermitianSwap_self]
      by_cases h : p = j ∧ q = j
      · obtain ⟨hp, hq⟩ := h
        rw [hp, hq, if_pos ⟨rfl, rfl⟩, happ, Equiv.swap_self]
        exact (hre j).trans (by simp)
      · rw [if_neg h, Equiv.swap_self]
        rfl
    · rw [hermitianSwap_apply_lower _ _ A j t hjt' p q hqp]
      by_cases h1 : p = q ∧ (p = j ∨ p = t)
      · rw [if_pos h1]
        obtain ⟨hp, _⟩ := h1
        rw [← hp]
        exact hre _
      · rw [if_neg h1]
        by_cases h2 : Equiv.swap j t q ≤ Equiv.swap j t p
        · rw [if_pos h2]
        · rw [if_neg h2, happ]
  refine ⟨main, fun p => ?_⟩
  rw [main p p le_rfl]
  exact hdiag _

/-- Witness for C3: the concrete Hermitian matrix `[[1, i], [-i, 2]]` with
`j = 0`, `t = 1`, evaluated at the read entry `(1, 0)` and at the
diagonal entry `(0, 0)`. -/
theorem C3_hermitian_swap_permutes_witness :
    hermA.IsHermitian ∧ (0 : Fin 2) ≤ 1 ∧
    hermitianSwap (starRingEnd ℂ) (fun z => ((z.re : ℝ) : ℂ)) hermA 0 1 1 0 =
      hermA (Equiv.swap 0 1 1) (Equiv.swap 0 1 0) ∧
    (hermitianSwap (starRingEnd ℂ) (fun z => ((z.re : ℝ) : ℂ)) hermA 0 1 0 0).im = 0 := by
  have hherm : hermA.IsHermitian := by
    ext i j
    fin_cases i <;> fin_cases j <;>
      simp [hermA, Matrix.conjTranspose_apply, Complex.ext_iff]
  refine ⟨hherm, by decide, ?_, ?_⟩
  · exact (C3_hermitian_swap_permutes hermA 0 1 hherm (by decide)).1 1 0 (by decide)
  · exact (C3_hermitian_swap_permutes hermA 0 1 hherm (by decide)).2 0

/-- Witness for C6: the zero kernel (`rank 0`) with requested size `1`. -/
theorem C6_oversized_request_witness :
    kernelRank (0 : Matrix (Fin 1) (Fin 1) ℝ) < (1 : ℤ) ∧
    gsSampler Real.sqrt (0 : Matrix (Fin 1) (Fin 1) ℝ) (some 1) (fun _ => 0) =
      Except.error SErr.assertionError ∧
    cholSampler Real.sqrt (0 : Matrix (Fin 1) (Fin 1) ℝ) (some 1) (fun _ => 0) =
      Except.error SErr.assertionError ∧
    schurSampler (0 : Matrix (Fin 1) (Fin 1) ℝ) (some 1) (fun _ => 0) =
      Except.error SErr.assertionError := by
  have h : kernelRank (0 : Matrix (Fin 1) (Fin 1) ℝ) < (1 : ℤ) := by
    simp [kernelRank]
  exact ⟨h, C6_oversized_request _ 1 _ h⟩

/-! ## C9: the rank-one kernel K = v·vᵀ, v = e₀ -/

/-- Case exhaustion for indices of the three-point ground set. -/
theorem fin3_eq_zero_or_one_or_two (x : Fin 3) : x = 0 ∨ x = 1 ∨ x = 2 := by
  fin_cases x <;> simp

/-- The trace of `rankOneK` rounds to rank `1`. -/
theorem rankOneK_rank : kernelRank rankOneK = 1 := by
  simp [kernelRank, rankOneK, Matrix.trace, Matrix.diag, Fin.sum_univ_three]

/-- Any index with nonzero initial residual weight for `rankOneK` is `0`. -/
theorem rankOneK_diag_support (r : Fin 3) (h : rankOneK r r ≠ 0) : r = 0 := by
  rcases fin3_eq_zero_or_one_or_two r with h0 | h0 | h0
  · exact h0
  · exfalso; apply h; rw [h0]; norm_num [rankOneK, Fin.ext_iff]
  · exfalso; apply h; rw [h0]; norm_num [rankOneK, Fin.ext_iff]

/-- C9: for the rank-one projection kernel `K = v·vᵀ` with `v = [1,0,0]ᵀ`
(`N = 3`) and no size argument, every valid run of each of the three
samplers returns the singleton sample `[0]` (the initial weights are
`[1,0,0]`, so index/position `0` is the only index of nonzero weight). -/
theorem C9_rank_one_kernel_singleton :
    (∀ choose : ℕ → Fin 3, gsValid Real.sqrt rankOneK 1 choose →
      gsSampler Real.sqrt rankOneK none choose = Except.ok [0]) ∧
    (∀ choose : ℕ → Fin 3, schurValid rankOneK 1 choose →
      schurSampler rankOneK none choose = Except.ok [0]) ∧
    (∀ choose : ℕ → Fin 3, cholValid Real.sqrt rankOneK 1 choose →
      cholSampler Real.sqrt rankOneK none choose = Except.ok [0]) := by
  have hfr : List.finRange 3 = [0, 1, 2] := by decide
  refine ⟨?_, ?_, ?_⟩
  · intro choose hvalid
    have h0 : choose 0 = 0 := by
      have h := (hvalid 0 (by norm_num)).2
      exact rankOneK_diag_support _ (by simpa [gsRun, gsInit] using h)
    simp [gsSampler, rankOneK_rank, gsSample, gsRun, gsStep, gsInit, h0]
  · intro choose hvalid
    have h0 : choose 0 = 0 := by
      have h := (hvalid 0 (by norm_num)).2
      exact rankOneK_diag_support _ (by simpa [schurRun, schurInit] using h)
    simp [schurSampler, rankOneK_rank, schurSample, schurRun, schurStep,
      schurInit, h0]
  · intro choose hvalid
    have h0 : choose 0 = 0 := by
      have h := (hvalid 0 (by norm_num)).2
      exact rankOneK_diag_support _ (by simpa [cholRun, cholInit] using h)
    simp [cholSampler, rankOneK_rank, cholSample, cholRun, cholStep,
      cholInit, h0, hfr, Equiv.swap_self]

/-- Witness for C9: the oracle that always draws index `0`. -/
theorem C9_rank_one_kernel_singleton_witness :
    (gsValid Real.sqrt rankOneK 1 (fun _ => 0) ∧
      gsSampler Real.sqrt rankOneK none (fun _ => 0) = Except.ok [0]) ∧
    (schurValid rankOneK 1 (fun _ => 0) ∧
      schurSampler rankOneK none (fun _ => 0) = Except.ok [0]) ∧
    (cholValid Real.sqrt rankOneK 1 (fun _ => 0) ∧
      cholSampler Real.sqrt rankOneK none (fun _ => 0) = Except.ok [0]) := by
  have hgs : gsValid Real.sqrt rankOneK 1 (fun _ => 0) := by
    intro it hit
    interval_cases it
    refine ⟨by simp [gsRun, gsInit], ?_⟩
    norm_num [gsRun, gsInit, rankOneK]
  have hschur : schurValid rankOneK 1 (fun _ => 0) := by
    intro it hit
    interval_cases it
    refine ⟨by simp [schurRun, schurInit], ?_⟩
    norm_num [schurRun, schurInit, rankOneK]
  have hchol : cholValid Real.sqrt rankOneK 1 (fun _ => 0) := by
    intro it hit
    interval_cases it
    refine ⟨by norm_num, ?_⟩
    norm_num [cholRun, cholInit, rankOneK]
  exact ⟨⟨hgs, C9_rank_one_kernel_singleton.1 _ hgs⟩,
    ⟨hschur, C9_rank_one_kernel_singleton.2.1 _ hschur⟩,
    ⟨hchol, C9_rank_one_kernel_singleton.2.2 _ hchol⟩⟩

/-! ## Structure of the sampler runs (sample array, remaining mask) -/

theorem gsStep_rem {N : ℕ} (sqrt : F → F) (K : Matrix (Fin N) (Fin N) F)
    (size : ℕ) (st : GSState N F) (it : ℕ) (j : Fin N) :
    (gsStep sqrt K size st it j).rem = st.rem.erase j := by
  simp only [gsStep]
  split <;> rfl

theorem gsStep_samp {N : ℕ} (sqrt : F → F) (K : Matrix (Fin N) (Fin N) F)
    (size : ℕ) (st : GSState N F) (it : ℕ) (j : Fin N) :
    (gsStep sqrt K size st it j).samp = Function.update st.samp it j := by
  simp only [gsStep]
  split <;> rfl

theorem gsRun_samp_stable {N : ℕ} [NeZero N] (sqrt : F → F)
    (K : Matrix (Fin N) (Fin N) F) (size : ℕ) (choose : ℕ → Fin N)
    {m n : ℕ} (h : m < n) :
    (gsRun sqrt K size choose n).samp m = choose m := by
  induction n with
  | zero => omega
  | succ k ih =>
    show (gsStep sqrt K size (gsRun sqrt K size choose k) k (choose k)).samp m = _
    rw [gsStep_samp]
    rcases Nat.lt_succ_iff_lt_or_eq.mp h with h' | h'
    · rw [Function.update_noteq (by omega), ih h']
    · rw [h', Function.update_same]

theorem gsRun_rem_succ {N : ℕ} [NeZero N] (sqrt : F → F)
    (K : Matrix (Fin N) (Fin N) F) (size : ℕ) (choose : ℕ → Fin N) (n : ℕ) :
    (gsRun sqrt K size choose (n + 1)).rem =
      (gsRun sqrt K size choose n).rem.erase (choose n) := by
  show (gsStep sqrt K size (gsRun sqrt K size choose n) n (choose n)).rem = _
  rw [gsStep_rem]

theorem gsRun_rem_subset {N : ℕ} [NeZero N] (sqrt : F → F)
    (K : Matrix (Fin N) (Fin N) F) (size : ℕ) (choose : ℕ → Fin N)
    {m n : ℕ} (h : m ≤ n) :
    (gsRun sqrt K size choose n).rem ⊆ (gsRun sqrt K size choose m).rem := by
  induction n with
  | zero => simp_all
  | succ k ih =>
    rcases Nat.le_succ_iff_eq_or_le.mp h with h' | h'
    · rw [h']
    · exact Finset.Subset.trans
        (by rw [gsRun_rem_succ]; exact Finset.erase_subset _ _) (ih h')

theorem gsRun_choose_not_mem {N : ℕ} [NeZero N] (sqrt : F → F)
    (K : Matrix (Fin N) (Fin N) F) (size : ℕ) (choose : ℕ → Fin N)
    {m n : ℕ} (h : m < n) :
    choose m ∉ (gsRun sqrt K size choose n).rem := by
  intro hmem
  have hsub := gsRun_rem_subset sqrt K size choose (Nat.succ_le_of_lt h)
  have := hsub hmem
  rw [gsRun_rem_succ] at this
  exact Finset.not_mem_erase _ _ this

theorem gsSample_nodup {N : ℕ} [NeZero N] (sqrt : F → F)
    (K : Matrix (Fin N) (Fin N) F) (size : ℕ) (choose : ℕ → Fin N)
    (hvalid : gsValid sqrt K size choose) :
    (gsSample sqrt K size choose).Nodup := by
  have hmap : gsSample sqrt K size choose = (List.range size).map choose := by
    apply List.map_congr_left
    intro n hn
    exact gsRun_samp_stable sqrt K size choose (List.mem_range.mp hn)
  rw [hmap]
  refine List.Nodup.map_on ?_ (List.nodup_range _)
  intro a ha b hb hab
  by_contra hne
  wlog hlt : a < b generalizing a b
  · exact this b hb a ha hab.symm (Ne.symm hne) (by omega)
  · have h1 : choose a ∉ (gsRun sqrt K size choose b).rem :=
      gsRun_choose_not_mem sqrt K size choose hlt
    have h2 := (hvalid b (List.mem_range.mp hb)).1
    rw [hab] at h1
    exact h1 h2

theorem schurStep_rem {N : ℕ} (K : Matrix (Fin N) (Fin N) F)
    (size : ℕ) (st : SchurState N F) (it : ℕ) (j : Fin N) :
    (schurStep K size st it j).rem = st.rem.erase j := by
  unfold schurStep
  split <;> rfl

theorem schurStep_samp {N : ℕ} (K : Matrix (Fin N) (Fin N) F)
    (size : ℕ) (st : SchurState N F) (it : ℕ) (j : Fin N) :
    (schurStep K size st it j).samp = Function.update st.samp it j := by
  unfold schurStep
  split <;> rfl

theorem schurRun_samp_stable {N : ℕ} [NeZero N] (K : Matrix (Fin N) (Fin N) F)
    (size : ℕ) (choose : ℕ → Fin N) {m n : ℕ} (h : m < n) :
    (schurRun K size choose n).samp m = choose m := by
  induction n with
  | zero => omega
  | succ k ih =>
    show (schurStep K size (schurRun K size choose k) k (choose k)).samp m = _
    rw [schurStep_samp]
    rcases Nat.lt_succ_iff_lt_or_eq.mp h with h' | h'
    · rw [Function.update_noteq (by omega), ih h']
    · rw [h', Function.update_same]

theorem schurRun_rem_succ {N : ℕ} [NeZero N] (K : Matrix (Fin N) (Fin N) F)
    (size : ℕ) (choose : ℕ → Fin N) (n : ℕ) :
    (schurRun K size choose (n + 1)).rem =
      (schurRun K size choose n).rem.erase (choose n) := by
  show (schurStep K size (schurRun K size choose n) n (choose n)).rem = _
  rw [schurStep_rem]

theorem schurRun_rem_subset {N : ℕ} [NeZero N] (K : Matrix (Fin N) (Fin N) F)
    (size : ℕ) (choose : ℕ → Fin N) {m n : ℕ} (h : m ≤ n) :
    (schurRun K size choose n).rem ⊆ (schurRun K size choose m).rem := by
  induction n with
  | zero => simp_all
  | succ k ih =>
    rcases Nat.le_succ_iff_eq_or_le.mp h with h' | h'
    · rw [h']
    · exact Finset.Subset.trans
        (by rw [schurRun_rem_succ]; exact Finset.erase_subset _ _) (ih h')

theorem schurRun_choose_not_mem {N : ℕ} [NeZero N] (K : Matrix (Fin N) (Fin N) F)
    (size : ℕ) (choose : ℕ → Fin N) {m n : ℕ} (h : m < n) :
    choose m ∉ (schurRun K size choose n).rem := by
  intro hmem
  have hsub := schurRun_rem_subset K size choose (Nat.succ_le_of_lt h)
  have := hsub hmem
  rw [schurRun_rem_succ] at this
  exact Finset.not_mem_erase _ _ this

theorem schurSample_nodup {N : ℕ} [NeZero N] (K : Matrix (Fin N) (Fin N) F)
    (size : ℕ) (choose : ℕ → Fin N) (hvalid : schurValid K size choose) :
    (schurSample K size choose).Nodup := by
  have hmap : schurSample K size choose = (List.range size).map choose := by
    apply List.map_congr_left
    intro n hn
    exact schurRun_samp_stable K size choose (List.mem_range.mp hn)
  rw [hmap]
  refine List.Nodup.map_on ?_ (List.nodup_range _)
  intro a ha b hb hab
  by_contra hne
  wlog hlt : a < b generalizing a b
  · exact this b hb a ha hab.symm (Ne.symm hne) (by omega)
  · have h1 : choose a ∉ (schurRun K size choose b).rem :=
      schurRun_choose_not_mem K size choose hlt
    have h2 := (hvalid b (List.mem_range.mp hb)).1
    rw [hab] at h1
    exact h1 h2

theorem cholSample_nodup {N : ℕ} (sqrt : F → F) (K : Matrix (Fin N) (Fin N) F)
    (size : ℕ) (choose : ℕ → Fin N) :
    (cholSample sqrt K size choose).Nodup := by
  refine List.Sublist.nodup (List.take_sublist _ _) ?_
  exact (List.nodup_finRange N).map (Equiv.injective _)

theorem cholSample_length {N : ℕ} (sqrt : F → F) (K : Matrix (Fin N) (Fin N) F)
    (size : ℕ) (choose : ℕ → Fin N) :
    (cholSample sqrt K size choose).length = min size N := by
  simp [cholSample]

/-! ## Diagonal bounds for symmetric projection kernels -/

theorem sym_apply_comm {N : ℕ} {K : Matrix (Fin N) (Fin N) F}
    (hsym : IsSymKernel K) (a b : Fin N) : K a b = K b a := by
  have h := congrFun (congrFun hsym b) a
  simpa [Matrix.transpose_apply] using h

theorem sym_proj_diag_eq_sum_sq {N : ℕ} {K : Matrix (Fin N) (Fin N) F}
    (hsym : IsSymKernel K) (hproj : IsProjKernel K) (r : Fin N) :
    K r r = ∑ q : Fin N, (K r q) ^ 2 := by
  have h : (K * K) r r = K r r := by rw [hproj]
  rw [← h, Matrix.mul_apply]
  refine Finset.sum_congr rfl fun q _ => ?_
  rw [sym_apply_comm hsym q r]
  ring

theorem sym_proj_diag_nonneg {N : ℕ} {K : Matrix (Fin N) (Fin N) F}
    (hsym : IsSymKernel K) (hproj : IsProjKernel K) (r : Fin N) :
    0 ≤ K r r := by
  rw [sym_proj_diag_eq_sum_sq hsym hproj r]
  exact Finset.sum_nonneg fun q _ => sq_nonneg _

theorem sym_proj_diag_le_one {N : ℕ} {K : Matrix (Fin N) (Fin N) F}
    (hsym : IsSymKernel K) (hproj : IsProjKernel K) (r : Fin N) :
    K r r ≤ 1 := by
  have hsq : (K r r) ^ 2 ≤ ∑ q : Fin N, (K r q) ^ 2 :=
    Finset.single_le_sum (fun q (_ : q ∈ Finset.univ) => sq_nonneg (K r q))
      (Finset.mem_univ r)
  have hdg := sym_proj_diag_eq_sum_sq hsym hproj r
  nlinarith [hsq, hdg, sq_nonneg (K r r - 1)]

theorem sym_proj_trace_bounds {N : ℕ} {K : Matrix (Fin N) (Fin N) F}
    (hsym : IsSymKernel K) (hproj : IsProjKernel K) :
    0 ≤ Matrix.trace K ∧ Matrix.trace K ≤ (N : F) := by
  constructor
  · exact Finset.sum_nonneg fun r _ => sym_proj_diag_nonneg hsym hproj r
  · calc Matrix.trace K = ∑ r : Fin N, K r r := rfl
      _ ≤ ∑ _r : Fin N, (1 : F) :=
        Finset.sum_le_sum fun r _ => sym_proj_diag_le_one hsym hproj r
      _ = (N : F) := by simp

theorem sym_proj_rank_nonneg {N : ℕ} [FloorRing F] {K : Matrix (Fin N) (Fin N) F}
    (hsym : IsSymKernel K) (hproj : IsProjKernel K) :
    0 ≤ kernelRank K := by
  have h := (sym_proj_trace_bounds hsym hproj).1
  rw [kernelRank, round_eq]
  exact Int.floor_nonneg.mpr (by linarith)

theorem sym_proj_rank_le_card {N : ℕ} [FloorRing F] {K : Matrix (Fin N) (Fin N) F}
    (hsym : IsSymKernel K) (hproj : IsProjKernel K) :
    kernelRank K ≤ (N : ℤ) := by
  have h := (sym_proj_trace_bounds hsym hproj).2
  rw [kernelRank, round_eq]
  have h2 : Matrix.trace K + 1 / 2 ≤ (N : F) + 1 / 2 := by linarith
  calc ⌊Matrix.trace K + 1 / 2⌋ ≤ ⌊(N : F) + 1 / 2⌋ := Int.floor_mono h2
    _ = (N : ℤ) := by
      rw [show ((N : F) : F) = ((N : ℤ) : F) by push_cast; ring, Int.floor_int_add]
      norm_num

/-! ## C5: returned sample size and distinctness -/

/-- C5: for every kernel and every run that returns, each sampler returns
exactly `sizeVal.toNat` indices, where `sizeVal` is the explicit `size`
when provided and `round(trace(K))` otherwise, and the returned indices
are pairwise distinct elements of `Fin N` (i.e. of `[0, N)`); for a
symmetric projection kernel the default size is a genuine natural number
(`0 ≤ round(trace(K))`), so with no size argument the samplers return
exactly `round(trace(K))` indices. -/
theorem C5_sample_length_distinct {N : ℕ} [NeZero N]
    (K : Matrix (Fin N) (Fin N) ℝ) (size : Option ℕ) (choose : ℕ → Fin N) :
    (∀ s, gsValid Real.sqrt K (size.elim (kernelRank K) fun m => (m : ℤ)).toNat choose →
      gsSampler Real.sqrt K size choose = Except.ok s →
      s.length = (size.elim (kernelRank K) fun m => (m : ℤ)).toNat ∧ s.Nodup) ∧
    (∀ s, schurValid K (size.elim (kernelRank K) fun m => (m : ℤ)).toNat choose →
      schurSampler K size choose = Except.ok s →
      s.length = (size.elim (kernelRank K) fun m => (m : ℤ)).toNat ∧ s.Nodup) ∧
    (∀ s, IsSymKernel K → IsProjKernel K →
      cholSampler Real.sqrt K size choose = Except.ok s →
      s.length = (size.elim (kernelRank K) fun m => (m : ℤ)).toNat ∧ s.Nodup) ∧
    (IsSymKernel K → IsProjKernel K →
      0 ≤ size.elim (kernelRank K) fun m => (m : ℤ)) := by
  refine ⟨?_, ?_, ?_, ?_⟩
  · intro s hval hok
    by_cases hc : (size.elim (kernelRank K) fun m => (m : ℤ)) ≤ kernelRank K
    · simp only [gsSampler, if_pos hc, Except.ok.injEq] at hok
      subst hok
      exact ⟨by simp [gsSample], gsSample_nodup _ K _ choose hval⟩
    · simp [gsSampler, if_neg hc] at hok
  · intro s hval hok
    by_cases hc : (size.elim (kernelRank K) fun m => (m : ℤ)) ≤ kernelRank K
    · simp only [schurSampler, if_pos hc, Except.ok.injEq] at hok
      subst hok
      exact ⟨by simp [schurSample], schurSample_nodup K _ choose hval⟩
    · simp [schurSampler, if_neg hc] at hok
  · intro s hsym hproj hok
    by_cases hc : (size.elim (kernelRank K) fun m => (m : ℤ)) ≤ kernelRank K
    · simp only [cholSampler, if_pos hc, Except.ok.injEq] at hok
      subst hok
      have hZ : (size.elim (kernelRank K) fun m => (m : ℤ)) ≤ (N : ℤ) :=
        le_trans hc (sym_proj_rank_le_card hsym hproj)
      have hN : (size.elim (kernelRank K) fun m => (m : ℤ)).toNat ≤ N := by
        have := Int.toNat_le_toNat hZ
        simpa using this
      refine ⟨?_, cholSample_nodup _ K _ choose⟩
      rw [cholSample_length]
      exact Nat.min_eq_left hN
    · simp [cholSampler, if_neg hc] at hok
  · intro hsym hproj
    cases size with
    | none => exact sym_proj_rank_nonneg hsym hproj
    | some m => simp

/-- Witness for C5: the 1×1 identity kernel with no size argument; each
sampler returns the singleton `[0]`, of length `round(trace(K)) = 1`. -/
theorem C5_sample_length_distinct_witness :
    (gsValid Real.sqrt (1 : Matrix (Fin 1) (Fin 1) ℝ)
        ((Option.elim none (kernelRank (1 : Matrix (Fin 1) (Fin 1) ℝ))
          fun m => (m : ℤ)).toNat) (fun _ => 0) ∧
      gsSampler Real.sqrt (1 : Matrix (Fin 1) (Fin 1) ℝ) none (fun _ => 0) =
        Except.ok [0] ∧
      ([0] : List (Fin 1)).length =
        (Option.elim none (kernelRank (1 : Matrix (Fin 1) (Fin 1) ℝ))
          fun m => (m : ℤ)).toNat ∧ ([0] : List (Fin 1)).Nodup) ∧
    (schurSampler (1 : Matrix (Fin 1) (Fin 1) ℝ) none (fun _ => 0) =
        Except.ok [0]) ∧
    (IsSymKernel (1 : Matrix (Fin 1) (Fin 1) ℝ) ∧
      IsProjKernel (1 : Matrix (Fin 1) (Fin 1) ℝ) ∧
      cholSampler Real.sqrt (1 : Matrix (Fin 1) (Fin 1) ℝ) none (fun _ => 0) =
        Except.ok [0] ∧
      0 ≤ Option.elim none (kernelRank (1 : Matrix (Fin 1) (Fin 1) ℝ))
        fun m => (m : ℤ)) := by
  have hrank : kernelRank (1 : Matrix (Fin 1) (Fin 1) ℝ) = 1 := by
    simp [kernelRank]
  have hsym : IsSymKernel (1 : Matrix (Fin 1) (Fin 1) ℝ) := Matrix.transpose_one
  have hproj : IsProjKernel (1 : Matrix (Fin 1) (Fin 1) ℝ) := one_mul 1
  have hval : gsValid Real.sqrt (1 : Matrix (Fin 1) (Fin 1) ℝ)
      ((Option.elim none (kernelRank (1 : Matrix (Fin 1) (Fin 1) ℝ))
        fun m => (m : ℤ)).toNat) (fun _ => 0) := by
    have hone : (Option.elim none (kernelRank (1 : Matrix (Fin 1) (Fin 1) ℝ))
        fun m => (m : ℤ)).toNat = 1 := by
      rw [Option.elim, hrank]
      rfl
    rw [hone]
    intro it hit
    interval_cases it
    refine ⟨by simp [gsRun, gsInit], ?_⟩
    norm_num [gsRun, gsInit, Matrix.one_apply]
  have hgsok : gsSampler Real.sqrt (1 : Matrix (Fin 1) (Fin 1) ℝ) none
      (fun _ => 0) = Except.ok [0] := by
    simp [gsSampler, hrank, gsSample, gsRun, gsStep, gsInit]
  have hschurok : schurSampler (1 : Matrix (Fin 1) (Fin 1) ℝ) none
      (fun _ => 0) = Except.ok [0] := by
    simp [schurSampler, hrank, schurSample, schurRun, schurStep, schurInit]
  have hcholok : cholSampler Real.sqrt (1 : Matrix (Fin 1) (Fin 1) ℝ) none
      (fun _ => 0) = Except.ok [0] := by
    have hfr : List.finRange 1 = [0] := by decide
    simp [cholSampler, hrank, cholSample, cholRun, cholStep, cholInit, hfr,
      Equiv.swap_self]
  have h := C5_sample_length_distinct (1 : Matrix (Fin 1) (Fin 1) ℝ) none
    (fun _ => 0)
  exact ⟨⟨hval, hgsok, h.1 [0] hval hgsok⟩, hschurok,
    hsym, hproj, hcholok, h.2.2.2 hsym hproj⟩

/-! ## C4: the Gram-Schmidt deflation on a complex kernel -/

/-- C4 (code-bug evidence): on the complex Hermitian projection kernel
`cplxProjK` (trace 2, so the default run has `size = 2` and the step-0
coefficient/deflation update executes), the coefficient
`c[1, 0] = K[1,0]/sqrt(norm_2[0])` formed at step 0 has complex square
`c² = -1/2`, whereas `|c|² = 1/2`: the code's deflation
`norm_2[rem] -= c[rem, 0] ** 2` does not subtract the squared magnitude
(and in numpy it raises a `TypeError`, casting the complex-dtype `c**2`
into the real array `norm_2`), while the Cholesky sampler's
`iscomplexobj` branch subtracts `re² + im²` as intended. -/
theorem C4_gs_complex_deflation_mismatch :
    cplxProjK.IsHermitian ∧
    cplxProjK * cplxProjK = cplxProjK ∧
    Matrix.trace cplxProjK = 2 ∧
    (cplxProjK 0 0).re ≠ 0 ∧
    gsCoefZeroC cplxProjK 0 1 ^ 2 = -(1/2 : ℂ) ∧
    (Complex.normSq (gsCoefZeroC cplxProjK 0 1) : ℂ) = 1/2 ∧
    gsCoefZeroC cplxProjK 0 1 ^ 2 ≠
      (Complex.normSq (gsCoefZeroC cplxProjK 0 1) : ℂ) := by
  have hre : (cplxProjK 0 0).re = 1/2 := by
    simp [cplxProjK]
  have hc : gsCoefZeroC cplxProjK 0 1 =
      (-Complex.I/2) / ((Real.sqrt (1/2) : ℝ) : ℂ) := by
    rw [gsCoefZeroC, hre]
    simp [cplxProjK]
  have hden : ((Real.sqrt (1/2) : ℝ) : ℂ) ^ 2 = (1/2 : ℂ) := by
    rw [← Complex.ofReal_pow, Real.sq_sqrt (by norm_num : (0:ℝ) ≤ 1/2)]
    norm_num
  have hsq : gsCoefZeroC cplxProjK 0 1 ^ 2 = -(1/2 : ℂ) := by
    rw [hc, div_pow, hden]
    have : (-Complex.I/2) ^ 2 = -(1/4 : ℂ) := by
      rw [div_pow, neg_pow, Complex.I_sq]
      norm_num
    rw [this]
    norm_num
  have hnsq : (Complex.normSq (gsCoefZeroC cplxProjK 0 1) : ℂ) = 1/2 := by
    rw [hc, Complex.normSq_div]
    have h1 : Complex.normSq (-Complex.I/2) = 1/4 := by
      simp [Complex.normSq_apply]
      norm_num
    have h2 : Complex.normSq ((Real.sqrt (1/2) : ℝ) : ℂ) = 1/2 := by
      rw [Complex.normSq_ofReal, Real.mul_self_sqrt (by norm_num : (0:ℝ) ≤ 1/2)]
    rw [h1, h2]
    norm_num
  refine ⟨?_, ?_, ?_, by rw [hre]; norm_num, hsq, hnsq, ?_⟩
  · ext i j
    fin_cases i <;> fin_cases j <;>
      simp [cplxProjK, Matrix.conjTranspose_apply, Complex.ext_iff]
  · ext i j
    fin_cases i <;> fin_cases j <;>
      simp [cplxProjK, Matrix.mul_apply, Fin.sum_univ_three] <;>
        ring_nf <;> simp [Complex.I_sq] <;> ring
  · simp [Matrix.trace, Matrix.diag, Fin.sum_univ_three, cplxProjK]
    norm_num
  · rw [hsq, hnsq]
    norm_num [Complex.ext_iff]

/-! ## C1: the it = 1 inverse block of the Schur sampler -/

/-- C1 (code-bug evidence): on the non-Hermitian projection kernel
`skewProjK` (`K² = K`, trace 2) the Schur sampler's run drawing index `0`
then index `2` is valid (each drawn index is remaining with nonzero weight,
and here the weights are genuine probabilities), yet the block stored at
step `it = 1`, namely `[[-2, -2], [-2, -1]]`, is **not** the inverse of
the 2×2 Gram block `[[K[0,0], K[0,2]], [K[2,0], K[2,2]]] = [[1/2, 0], [-1, 1]]`
(which is invertible, with inverse `[[2, 0], [2, 1]]`): the code symmetrises
with `K[j,i]` in both off-diagonal slots and uses `K[j,i]**2` in the
determinant, which is only correct when `K[i,j] = K[j,i]`. -/
theorem C1_schur_it1_block_not_inverse :
    skewProjK * skewProjK = skewProjK ∧
    Matrix.trace skewProjK = 2 ∧
    schurValid skewProjK 2 skewChoose ∧
    storedBlock (schurRun skewProjK 2 skewChoose 2) =
      Matrix.of ![![-2, -2], ![-2, -1]] ∧
    IsUnit (gramBlock skewProjK 0 2).det ∧
    storedBlock (schurRun skewProjK 2 skewChoose 2) ≠ (gramBlock skewProjK 0 2)⁻¹ := by
  have hproj : skewProjK * skewProjK = skewProjK := by
    ext i j
    fin_cases i <;> fin_cases j <;>
      norm_num [skewProjK, Matrix.mul_apply, Fin.sum_univ_three]
  have htr : Matrix.trace skewProjK = 2 := by
    norm_num [Matrix.trace, Matrix.diag, Fin.sum_univ_three, skewProjK]
  have hK1 : storedBlock (schurRun skewProjK 2 skewChoose 2) =
      Matrix.of ![![-2, -2], ![-2, -1]] := by
    ext a b
    fin_cases a <;> fin_cases b <;>
      norm_num [storedBlock, schurRun, schurStep, schurInit, schurQuad,
        skewProjK, skewChoose, Function.update, Fin.ext_iff]
  have hdet : (gramBlock skewProjK 0 2).det = 1/2 := by
    rw [Matrix.det_fin_two]
    norm_num [gramBlock, skewProjK]
  have hvalid : schurValid skewProjK 2 skewChoose := by
    intro it hit
    interval_cases it
    · refine ⟨by simp [schurRun, schurInit, skewChoose], ?_⟩
      norm_num [schurRun, schurInit, skewChoose, skewProjK]
    · refine ⟨?_, ?_⟩
      · norm_num [schurRun, schurStep, schurInit, skewChoose, Fin.ext_iff]
      · norm_num [schurRun, schurStep, schurInit, schurQuad, skewChoose,
          skewProjK, Function.update, Fin.ext_iff]
  refine ⟨hproj, htr, hvalid, hK1, by rw [hdet]; norm_num, ?_⟩
  intro heq
  have hmul : storedBlock (schurRun skewProjK 2 skewChoose 2) *
      gramBlock skewProjK 0 2 = 1 := by
    rw [heq]
    exact Matrix.nonsing_inv_mul _ (by rw [hdet]; norm_num)
  have h01 : (storedBlock (schurRun skewProjK 2 skewChoose 2) *
      gramBlock skewProjK 0 2) 0 1 = (1 : Matrix (Fin 2) (Fin 2) ℝ) 0 1 := by
    rw [hmul]
  rw [hK1] at h01
  norm_num [Matrix.mul_apply, Fin.sum_univ_two, gramBlock, skewProjK,
    Matrix.one_apply] at h01

/-! ## Properties of the abstract Schur-complement chain -/

theorem schurStepM_apply {N : ℕ} (S : Matrix (Fin N) (Fin N) ℝ) (j r q : Fin N) :
    schurStepM S j r q = S r q - S r j * S j q / S j j := rfl

theorem mul_point {N : ℕ} {S : Matrix (Fin N) (Fin N) ℝ} (h : S * S = S)
    (x y : Fin N) : ∑ z : Fin N, S x z * S z y = S x y := by
  have := congrFun (congrFun h x) y
  rwa [Matrix.mul_apply] at this

theorem symm_point {N : ℕ} {S : Matrix (Fin N) (Fin N) ℝ} (h : Sᵀ = S)
    (x y : Fin N) : S x y = S y x := by
  have := congrFun (congrFun h y) x
  simpa [Matrix.transpose_apply] using this

theorem schurStepM_symm {N : ℕ} {S : Matrix (Fin N) (Fin N) ℝ} (hsym : Sᵀ = S)
    (j : Fin N) : (schurStepM S j)ᵀ = schurStepM S j := by
  ext r q
  simp only [Matrix.transpose_apply, schurStepM, Matrix.of_apply]
  rw [symm_point hsym q r, symm_point hsym q j, symm_point hsym j r]
  ring

theorem schurStepM_idem {N : ℕ} {S : Matrix (Fin N) (Fin N) ℝ} (hidem : S * S = S)
    {j : Fin N} (hjj : S j j ≠ 0) :
    schurStepM S j * schurStepM S j = schurStepM S j := by
  ext r q
  rw [Matrix.mul_apply]
  have expand : ∀ x, (schurStepM S j) r x * (schurStepM S j) x q =
      S r x * S x q - S j q / S j j * (S r x * S x j)
        - S r j / S j j * (S j x * S x q)
        + S r j / S j j * (S j q / S j j) * (S j x * S x j) := by
    intro x
    simp only [schurStepM, Matrix.of_apply]
    ring
  rw [Finset.sum_congr rfl fun x _ => expand x]
  rw [Finset.sum_add_distrib, Finset.sum_sub_distrib, Finset.sum_sub_distrib,
    ← Finset.mul_sum, ← Finset.mul_sum, ← Finset.mul_sum,
    mul_point hidem r q, mul_point hidem r j, mul_point hidem j q,
    mul_point hidem j j]
  simp only [schurStepM, Matrix.of_apply]
  field_simp
  ring

theorem schurStepM_trace {N : ℕ} {S : Matrix (Fin N) (Fin N) ℝ} (hidem : S * S = S)
    {j : Fin N} (hjj : S j j ≠ 0) :
    Matrix.trace (schurStepM S j) = Matrix.trace S - 1 := by
  simp only [Matrix.trace, Matrix.diag, schurStepM, Matrix.of_apply]
  rw [Finset.sum_sub_distrib]
  have h1 : ∑ r : Fin N, S r j * S j r / S j j =
      (∑ r : Fin N, S j r * S r j) / S j j := by
    rw [Finset.sum_div]
    exact Finset.sum_congr rfl fun r _ => by ring
  rw [h1, mul_point hidem j j, div_self hjj]

theorem schurStepM_row_zero {N : ℕ} {S : Matrix (Fin N) (Fin N) ℝ}
    {j : Fin N} (hjj : S j j ≠ 0) (q : Fin N) : schurStepM S j j q = 0 := by
  simp only [schurStepM, Matrix.of_apply]
  field_simp

theorem schurStepM_col_zero {N : ℕ} {S : Matrix (Fin N) (Fin N) ℝ}
    {j : Fin N} (hjj : S j j ≠ 0) (q : Fin N) : schurStepM S j q j = 0 := by
  simp only [schurStepM, Matrix.of_apply]
  field_simp

theorem schurStepM_preserve_row_zero {N : ℕ} {S : Matrix (Fin N) (Fin N) ℝ}
    {j p : Fin N} (h : ∀ q, S p q = 0) (q : Fin N) : schurStepM S j p q = 0 := by
  simp only [schurStepM, Matrix.of_apply, h j, h q]
  ring

theorem schurStepM_preserve_col_zero {N : ℕ} {S : Matrix (Fin N) (Fin N) ℝ}
    {j p : Fin N} (h : ∀ q, S q p = 0) (q : Fin N) : schurStepM S j q p = 0 := by
  simp only [schurStepM, Matrix.of_apply, h j, h q]
  ring

theorem symm_idem_diag_nonneg {N : ℕ} {S : Matrix (Fin N) (Fin N) ℝ}
    (hsym : Sᵀ = S) (hidem : S * S = S) (r : Fin N) : 0 ≤ S r r := by
  have h : S r r = ∑ z : Fin N, (S r z) ^ 2 := by
    rw [← mul_point hidem r r]
    exact Finset.sum_congr rfl fun z _ => by rw [symm_point hsym z r]; ring
  rw [h]
  exact Finset.sum_nonneg fun z _ => sq_nonneg _

theorem schurStepM_decomp {N : ℕ} {S : Matrix (Fin N) (Fin N) ℝ}
    (hsym : Sᵀ = S) {j : Fin N} (hjj : 0 < S j j) (r q : Fin N) :
    schurStepM S j r q =
      S r q - (S r j / Real.sqrt (S j j)) * (S q j / Real.sqrt (S j j)) := by
  simp only [schurStepM, Matrix.of_apply]
  rw [div_mul_div_comm, Real.mul_self_sqrt hjj.le, symm_point hsym q j]

/-- The chain facts: along a pivot sequence with nonzero pivots, each
`schurChain K ps n` is symmetric and idempotent, has trace
`trace K - n`, and vanishes on the rows and columns of all earlier
pivots. -/
theorem schurChain_facts {N : ℕ} {K : Matrix (Fin N) (Fin N) ℝ}
    (hsym : Kᵀ = K) (hidem : K * K = K) (ps : ℕ → Fin N) (n : ℕ)
    (hnz : ∀ t < n, schurChain K ps t (ps t) (ps t) ≠ 0) :
    (schurChain K ps n)ᵀ = schurChain K ps n ∧
    schurChain K ps n * schurChain K ps n = schurChain K ps n ∧
    Matrix.trace (schurChain K ps n) = Matrix.trace K - n ∧
    (∀ t < n, (∀ q, schurChain K ps n (ps t) q = 0) ∧
      (∀ q, schurChain K ps n q (ps t) = 0)) := by
  induction n with
  | zero => exact ⟨hsym, hidem, by simp [schurChain], by omega⟩
  | succ m ih =>
    obtain ⟨hs, hi, htr, hz⟩ := ih (fun t ht => hnz t (by omega))
    have hm : schurChain K ps m (ps m) (ps m) ≠ 0 := hnz m (by omega)
    refine ⟨schurStepM_symm hs _, schurStepM_idem hi hm, ?_, ?_⟩
    · show Matrix.trace (schurStepM (schurChain K ps m) (ps m)) = _
      rw [schurStepM_trace hi hm, htr]
      push_cast
      ring
    · intro t ht
      rcases Nat.lt_succ_iff_lt_or_eq.mp ht with ht' | ht'
      · exact ⟨schurStepM_preserve_row_zero (hz t ht').1,
          schurStepM_preserve_col_zero (hz t ht').2⟩
      · subst ht'
        exact ⟨schurStepM_row_zero hm, schurStepM_col_zero hm⟩

theorem schurChain_telescope {N : ℕ} {K : Matrix (Fin N) (Fin N) ℝ}
    (hsym : Kᵀ = K) (hidem : K * K = K) (ps : ℕ → Fin N) (n : ℕ)
    (hnz : ∀ t < n, schurChain K ps t (ps t) (ps t) ≠ 0) (r q : Fin N) :
    schurChain K ps n r q =
      K r q - ∑ t ∈ Finset.range n, uVec K ps t r * uVec K ps t q := by
  induction n with
  | zero => simp [schurChain]
  | succ m ih =>
    obtain ⟨hs, hi, _, _⟩ := schurChain_facts hsym hidem ps m
      (fun t ht => hnz t (by omega))
    have hm : schurChain K ps m (ps m) (ps m) ≠ 0 := hnz m (by omega)
    have hmpos : 0 < schurChain K ps m (ps m) (ps m) :=
      lt_of_le_of_ne (symm_idem_diag_nonneg hs hi _) (Ne.symm hm)
    show schurStepM (schurChain K ps m) (ps m) r q = _
    rw [schurStepM_decomp hs hmpos, ih (fun t ht => hnz t (by omega)),
      Finset.sum_range_succ]
    simp only [uVec]
    ring

/-! ## The Gram-Schmidt bridge: the sampler state tracks the Schur chain -/

theorem gsStep_break {N : ℕ} (sqrt : F → F) (K : Matrix (Fin N) (Fin N) F)
    (size : ℕ) (st : GSState N F) (it : ℕ) (j : Fin N) (h : it = size - 1) :
    gsStep sqrt K size st it j =
      ⟨st.rem.erase j, Function.update st.samp it j, st.norm2, st.c⟩ := by
  simp only [gsStep]
  rw [if_pos h]

theorem gsStep_norm2_full {N : ℕ} (sqrt : F → F) (K : Matrix (Fin N) (Fin N) F)
    (size : ℕ) (st : GSState N F) (it : ℕ) (j : Fin N) (h : ¬ it = size - 1)
    (r : Fin N) (hr : r ∈ st.rem.erase j) :
    (gsStep sqrt K size st it j).norm2 r =
      st.norm2 r - ((K r j - ∑ t ∈ Finset.range it, st.c r t * st.c j t) /
        sqrt (st.norm2 j)) ^ 2 := by
  simp only [gsStep]
  rw [if_neg h]
  dsimp only
  rw [if_pos hr, if_pos ⟨by trivial, hr⟩]

theorem gsStep_c_new {N : ℕ} (sqrt : F → F) (K : Matrix (Fin N) (Fin N) F)
    (size : ℕ) (st : GSState N F) (it : ℕ) (j : Fin N) (h : ¬ it = size - 1)
    (r : Fin N) (hr : r ∈ st.rem.erase j) :
    (gsStep sqrt K size st it j).c r it =
      (K r j - ∑ t ∈ Finset.range it, st.c r t * st.c j t) / sqrt (st.norm2 j) := by
  simp only [gsStep]
  rw [if_neg h]
  dsimp only
  rw [if_pos ⟨by trivial, hr⟩]

theorem gsStep_c_ne {N : ℕ} (sqrt : F → F) (K : Matrix (Fin N) (Fin N) F)
    (size : ℕ) (st : GSState N F) (it : ℕ) (j : Fin N)
    (r : Fin N) (s : ℕ) (hs : s ≠ it) :
    (gsStep sqrt K size st it j).c r s = st.c r s := by
  simp only [gsStep]
  split
  · rfl
  · dsimp only
    rw [if_neg (by exact fun hc => hs hc.1)]

theorem gsRun_rem_eq {N : ℕ} [NeZero N] (sqrt : F → F)
    (K : Matrix (Fin N) (Fin N) F) (size : ℕ) (choose : ℕ → Fin N) (n : ℕ) :
    (gsRun sqrt K size choose n).rem =
      Finset.univ \ (Finset.range n).image choose := by
  induction n with
  | zero => simp [gsRun, gsInit]
  | succ m ih =>
    rw [gsRun_rem_succ, ih, Finset.range_succ, Finset.image_insert,
      Finset.sdiff_insert]

/-- The central Gram-Schmidt invariant: at the start of each step `n`
of a valid run, every pivot so far had a nonzero chain pivot entry, the
residual vector `norm_2` equals the diagonal of the `n`-step Schur chain
along the drawn indices on the remaining set, and the coefficient columns
equal the chain's normalised pivot columns. -/
theorem gs_invariant {N : ℕ} [NeZero N] {K : Matrix (Fin N) (Fin N) ℝ}
    (hsym : IsSymKernel K) (hproj : IsProjKernel K) {size : ℕ}
    {choose : ℕ → Fin N} (hvalid : gsValid Real.sqrt K size choose) :
    ∀ n < size,
      (∀ t < n, schurChain K choose t (choose t) (choose t) ≠ 0) ∧
      (∀ r ∈ (gsRun Real.sqrt K size choose n).rem,
        (gsRun Real.sqrt K size choose n).norm2 r = schurChain K choose n r r) ∧
      (∀ r ∈ (gsRun Real.sqrt K size choose n).rem, ∀ t < n,
        (gsRun Real.sqrt K size choose n).c r t = uVec K choose t r) := by
  intro n
  induction n with
  | zero =>
    intro _
    exact ⟨by omega, fun r _ => rfl, by omega⟩
  | succ m ih =>
    intro hm1
    have hmlt : m < size := by omega
    obtain ⟨hA, hC, hD⟩ := ih hmlt
    obtain ⟨hjmem, hjnz⟩ := hvalid m hmlt
    have hchain_j : schurChain K choose m (choose m) (choose m) ≠ 0 := by
      rw [← hC (choose m) hjmem]
      exact hjnz
    have hA' : ∀ t < m + 1, schurChain K choose t (choose t) (choose t) ≠ 0 := by
      intro t ht
      rcases Nat.lt_succ_iff_lt_or_eq.mp ht with ht' | ht'
      · exact hA t ht'
      · rw [ht']; exact hchain_j
    obtain ⟨hs, hi, _, _⟩ := schurChain_facts hsym hproj choose m hA
    have hpos : 0 < schurChain K choose m (choose m) (choose m) :=
      lt_of_le_of_ne (symm_idem_diag_nonneg hs hi _) (Ne.symm hchain_j)
    have hfull : ¬ m = size - 1 := by omega
    have hrem1 : (gsRun Real.sqrt K size choose (m + 1)).rem =
        (gsRun Real.sqrt K size choose m).rem.erase (choose m) :=
      gsRun_rem_succ Real.sqrt K size choose m
    -- the coefficient formed at step m is the chain's normalised pivot column
    have hcoef : ∀ r ∈ (gsRun Real.sqrt K size choose m).rem.erase (choose m),
        (gsRun Real.sqrt K size choose (m + 1)).c r m = uVec K choose m r := by
      intro r hr
      have hrm : r ∈ (gsRun Real.sqrt K size choose m).rem :=
        Finset.mem_of_mem_erase hr
      show (gsStep Real.sqrt K size (gsRun Real.sqrt K size choose m) m
        (choose m)).c r m = _
      rw [gsStep_c_new Real.sqrt K size _ m (choose m) hfull r hr]
      have hnum : K r (choose m) -
          ∑ t ∈ Finset.range m,
            (gsRun Real.sqrt K size choose m).c r t *
              (gsRun Real.sqrt K size choose m).c (choose m) t =
          schurChain K choose m r (choose m) := by
        rw [schurChain_telescope hsym hproj choose m hA r (choose m)]
        congr 1
        refine Finset.sum_congr rfl fun t ht => ?_
        rw [hD r hrm t (Finset.mem_range.mp ht),
          hD (choose m) hjmem t (Finset.mem_range.mp ht)]
      rw [hnum, hC (choose m) hjmem]
      rfl
    refine ⟨hA', ?_, ?_⟩
    · intro r hr
      rw [hrem1] at hr
      have hrm : r ∈ (gsRun Real.sqrt K size choose m).rem :=
        Finset.mem_of_mem_erase hr
      have hstep : (gsRun Real.sqrt K size choose (m + 1)).norm2 r =
          (gsRun Real.sqrt K size choose m).norm2 r -
            ((gsRun Real.sqrt K size choose (m + 1)).c r m) ^ 2 := by
        show (gsStep Real.sqrt K size (gsRun Real.sqrt K size choose m) m
          (choose m)).norm2 r = _
        rw [gsStep_norm2_full Real.sqrt K size _ m (choose m) hfull r hr]
        congr 2
        exact (gsStep_c_new Real.sqrt K size _ m (choose m) hfull r hr).symm
      rw [hstep, hcoef r hr, hC r hrm]
      show _ = schurStepM (schurChain K choose m) (choose m) r r
      rw [schurStepM_decomp hs hpos r r]
      simp only [uVec]
      ring
    · intro r hr t ht
      rw [hrem1] at hr
      have hrm : r ∈ (gsRun Real.sqrt K size choose m).rem :=
        Finset.mem_of_mem_erase hr
      rcases Nat.lt_succ_iff_lt_or_eq.mp ht with ht' | ht'
      · have : (gsRun Real.sqrt K size choose (m + 1)).c r t =
            (gsRun Real.sqrt K size choose m).c r t := by
          show (gsStep Real.sqrt K size (gsRun Real.sqrt K size choose m) m
            (choose m)).c r t = _
          exact gsStep_c_ne Real.sqrt K size _ m (choose m) r t (by omega)
        rw [this, hD r hrm t ht']
      · rw [ht']
        exact hcoef r hr

/-- The Gram-Schmidt conditional-probability invariant: at the start of
every step `it` of a valid run on a symmetric projection kernel of exact
integer trace `r`, the residual norms of the remaining indices are
nonnegative and sum to `r - it`, so the selection weights
`|norm_2| / (r - it)` sum to `1`. -/
theorem gs_residual_sum {N : ℕ} [NeZero N] {K : Matrix (Fin N) (Fin N) ℝ}
    (hsym : IsSymKernel K) (hproj : IsProjKernel K) {r size : ℕ}
    (htrace : Matrix.trace K = (r : ℝ)) (hsize : size ≤ r)
    {choose : ℕ → Fin N} (hvalid : gsValid Real.sqrt K size choose) :
    ∀ it < size,
      (∑ x ∈ (gsRun Real.sqrt K size choose it).rem,
        (gsRun Real.sqrt K size choose it).norm2 x = (r : ℝ) - it) ∧
      (∀ x ∈ (gsRun Real.sqrt K size choose it).rem,
        0 ≤ (gsRun Real.sqrt K size choose it).norm2 x) ∧
      (∑ x ∈ (gsRun Real.sqrt K size choose it).rem,
        |(gsRun Real.sqrt K size choose it).norm2 x| / ((r : ℝ) - it) = 1) := by
  intro it hit
  obtain ⟨hA, hC, _⟩ := gs_invariant hsym hproj hvalid it hit
  obtain ⟨hs, hi, htr, hz⟩ := schurChain_facts hsym hproj choose it hA
  have hdiag0 : ∀ x ∈ (Finset.range it).image choose,
      schurChain K choose it x x = 0 := by
    intro x hx
    obtain ⟨t, ht, rfl⟩ := Finset.mem_image.mp hx
    exact (hz t (Finset.mem_range.mp ht)).1 _
  have hsum : ∑ x ∈ (gsRun Real.sqrt K size choose it).rem,
      (gsRun Real.sqrt K size choose it).norm2 x = (r : ℝ) - it := by
    rw [Finset.sum_congr rfl fun x hx => hC x hx, gsRun_rem_eq,
      Finset.sum_sdiff_eq_sub (Finset.subset_univ _),
      Finset.sum_eq_zero hdiag0, sub_zero]
    have : ∑ x : Fin N, schurChain K choose it x x =
        Matrix.trace (schurChain K choose it) := rfl
    rw [this, htr, htrace]
  have hnn : ∀ x ∈ (gsRun Real.sqrt K size choose it).rem,
      0 ≤ (gsRun Real.sqrt K size choose it).norm2 x := by
    intro x hx
    rw [hC x hx]
    exact symm_idem_diag_nonneg hs hi x
  refine ⟨hsum, hnn, ?_⟩
  have hpos : (0 : ℝ) < (r : ℝ) - it := by
    have : (it : ℝ) < (r : ℝ) := by
      exact_mod_cast lt_of_lt_of_le hit hsize
    linarith
  rw [Finset.sum_congr rfl fun x hx => by rw [abs_of_nonneg (hnn x hx)],
    ← Finset.sum_div, hsum, div_self (ne_of_gt hpos)]

/-! ## The Schur bridge: the stored block is a two-sided inverse of the Gram block -/

theorem schurStep_K1_zero {N : ℕ} (K : Matrix (Fin N) (Fin N) F) (size : ℕ)
    (st : SchurState N F) (j : Fin N) :
    (schurStep K size st 0 j).K1 =
      fun a b => if a = 0 ∧ b = 0 then 1 / K j j else st.K1 a b := rfl

theorem schurStep_K1_one {N : ℕ} (K : Matrix (Fin N) (Fin N) F) (size : ℕ)
    (st : SchurState N F) (j : Fin N) :
    (schurStep K size st 1 j).K1 = fun a b =>
      if a = 0 ∧ b = 0 then K j j / (K (st.samp 0) (st.samp 0) * K j j - K j (st.samp 0) ^ 2)
      else if a = 0 ∧ b = 1 then
        -(K j (st.samp 0)) / (K (st.samp 0) (st.samp 0) * K j j - K j (st.samp 0) ^ 2)
      else if a = 1 ∧ b = 0 then
        -(K j (st.samp 0)) / (K (st.samp 0) (st.samp 0) * K j j - K j (st.samp 0) ^ 2)
      else if a = 1 ∧ b = 1 then
        K (st.samp 0) (st.samp 0) / (K (st.samp 0) (st.samp 0) * K j j - K j (st.samp 0) ^ 2)
      else st.K1 a b := rfl

theorem schurStep_K1_wood {N : ℕ} (K : Matrix (Fin N) (Fin N) F) (size : ℕ)
    (st : SchurState N F) (it : ℕ) (j : Fin N) (h2 : 2 ≤ it)
    (hlt : it < size - 1) :
    (schurStep K size st it j).K1 = fun a b =>
      if a < it ∧ b < it then
        st.K1 a b +
          (∑ e ∈ Finset.range it, st.K1 a e * K (Function.update st.samp it j e) j) *
          ((∑ e ∈ Finset.range it, K j (Function.update st.samp it j e) * st.K1 e b) /
            (K j j - ∑ e ∈ Finset.range it, K j (Function.update st.samp it j e) *
              ∑ c ∈ Finset.range it, st.K1 e c * K (Function.update st.samp it j c) j))
      else if a < it ∧ b = it then
        -(∑ e ∈ Finset.range it, st.K1 a e * K (Function.update st.samp it j e) j) /
          (K j j - ∑ e ∈ Finset.range it, K j (Function.update st.samp it j e) *
            ∑ c ∈ Finset.range it, st.K1 e c * K (Function.update st.samp it j c) j)
      else if a = it ∧ b < it then
        -((∑ e ∈ Finset.range it, K j (Function.update st.samp it j e) * st.K1 e b) /
          (K j j - ∑ e ∈ Finset.range it, K j (Function.update st.samp it j e) *
            ∑ c ∈ Finset.range it, st.K1 e c * K (Function.update st.samp it j c) j))
      else if a = it ∧ b = it then
        1 / (K j j - ∑ e ∈ Finset.range it, K j (Function.update st.samp it j e) *
          ∑ c ∈ Finset.range it, st.K1 e c * K (Function.update st.samp it j c) j)
      else st.K1 a b := by
  unfold schurStep
  split
  · rename_i hcond
    exact absurd hlt hcond.2
  · dsimp only
    rw [if_neg (by omega), if_neg (by omega)]

theorem schurStep_schur_mem {N : ℕ} (K : Matrix (Fin N) (Fin N) F) (size : ℕ)
    (st : SchurState N F) (it : ℕ) (j : Fin N)
    (h : ¬ (2 ≤ it ∧ ¬ it < size - 1)) (x : Fin N) (hx : x ∈ st.rem.erase j) :
    (schurStep K size st it j).schur x =
      K x x - schurQuad K (Function.update st.samp it j)
        (schurStep K size st it j).K1 (it + 1) x := by
  unfold schurStep
  split
  · rename_i hcond
    exact absurd hcond h
  · dsimp only
    rw [if_pos hx]

/-- Pure Woodbury step: if `B` is a symmetric right inverse of the Gram
entries `g` on `range m` and the Schur complement of the new point `m` is
nonzero, the rank-one-updated block stored by the code is a right inverse
on `range (m+1)`. -/
theorem wood_inverse_step (m : ℕ) (g B : ℕ → ℕ → ℝ)
    (hgsym : ∀ x y, g x y = g y x)
    (hB1 : ∀ a b, a < m → b < m → B a b = B b a)
    (hB2 : ∀ a b, a < m → b < m →
      ∑ c ∈ Finset.range m, B a c * g c b = if a = b then 1 else 0)
    (hdnz : g m m - (∑ e ∈ Finset.range m, g m e *
      ∑ c ∈ Finset.range m, B e c * g c m) ≠ 0) :
    ∀ a b, a < m + 1 → b < m + 1 →
      ∑ c ∈ Finset.range (m + 1),
        (if a < m ∧ c < m then
          B a c + (∑ e ∈ Finset.range m, B a e * g e m) *
            ((∑ e ∈ Finset.range m, g m e * B e c) /
              (g m m - ∑ e ∈ Finset.range m, g m e *
                ∑ c' ∈ Finset.range m, B e c' * g c' m))
        else if a < m ∧ c = m then
          -(∑ e ∈ Finset.range m, B a e * g e m) /
            (g m m - ∑ e ∈ Finset.range m, g m e *
              ∑ c' ∈ Finset.range m, B e c' * g c' m)
        else if a = m ∧ c < m then
          -((∑ e ∈ Finset.range m, g m e * B e c) /
            (g m m - ∑ e ∈ Finset.range m, g m e *
              ∑ c' ∈ Finset.range m, B e c' * g c' m))
        else if a = m ∧ c = m then
          1 / (g m m - ∑ e ∈ Finset.range m, g m e *
            ∑ c' ∈ Finset.range m, B e c' * g c' m)
        else B a c) * g c b
      = if a = b then 1 else 0 := by
  intro a b ha hb
  have ht2 : ∀ c, c < m → (∑ e ∈ Finset.range m, g m e * B e c)
      = ∑ e ∈ Finset.range m, B c e * g e m := by
    intro c hc
    refine Finset.sum_congr rfl fun e he => ?_
    rw [hB1 e c (Finset.mem_range.mp he) hc, hgsym m e]
    ring
  have hKey : ∀ b', b' < m →
      ∑ c ∈ Finset.range m, (∑ e ∈ Finset.range m, B c e * g e m) * g c b'
        = g m b' := by
    intro b' hb'
    have h1 : ∀ c ∈ Finset.range m,
        (∑ e ∈ Finset.range m, B c e * g e m) * g c b'
          = ∑ e ∈ Finset.range m, g e m * (B e c * g c b') := by
      intro c hc
      rw [Finset.sum_mul]
      refine Finset.sum_congr rfl fun e he => ?_
      rw [hB1 c e (Finset.mem_range.mp hc) (Finset.mem_range.mp he)]
      ring
    rw [Finset.sum_congr rfl h1, Finset.sum_comm]
    have h2 : ∀ e ∈ Finset.range m,
        ∑ c ∈ Finset.range m, g e m * (B e c * g c b')
          = g e m * (if e = b' then 1 else 0) := by
      intro e he
      rw [← Finset.mul_sum, hB2 e b' (Finset.mem_range.mp he) hb']
    rw [Finset.sum_congr rfl h2]
    simp only [mul_ite, mul_one, mul_zero]
    rw [Finset.sum_ite_eq' (Finset.range m) b' fun e => g e m,
      if_pos (Finset.mem_range.mpr hb'), hgsym b' m]
  have hKey2 : ∑ c ∈ Finset.range m, (∑ e ∈ Finset.range m, B c e * g e m) * g c m
      = ∑ e ∈ Finset.range m, g m e * ∑ c ∈ Finset.range m, B e c * g c m := by
    have h1 : ∀ c ∈ Finset.range m,
        (∑ e ∈ Finset.range m, B c e * g e m) * g c m
          = ∑ e ∈ Finset.range m, g m e * (B e c * g c m) := by
      intro c hc
      rw [Finset.sum_mul]
      refine Finset.sum_congr rfl fun e he => ?_
      rw [hB1 c e (Finset.mem_range.mp hc) (Finset.mem_range.mp he), hgsym m e]
      ring
    rw [Finset.sum_congr rfl h1, Finset.sum_comm]
    exact Finset.sum_congr rfl fun e _ => (Finset.mul_sum _ _ _).symm
  rw [Finset.sum_range_succ]
  rcases Nat.lt_succ_iff_lt_or_eq.mp ha with ha' | ha' <;>
    rcases Nat.lt_succ_iff_lt_or_eq.mp hb with hb' | hb'
  · rw [if_neg (by omega), if_pos ⟨ha', rfl⟩]
    trans (∑ c ∈ Finset.range m, (B a c * g c b +
        (∑ e ∈ Finset.range m, B a e * g e m) /
          (g m m - ∑ e ∈ Finset.range m, g m e *
            ∑ c' ∈ Finset.range m, B e c' * g c' m) *
          ((∑ e ∈ Finset.range m, B c e * g e m) * g c b))) +
      -(∑ e ∈ Finset.range m, B a e * g e m) /
          (g m m - ∑ e ∈ Finset.range m, g m e *
            ∑ c' ∈ Finset.range m, B e c' * g c' m) * g m b
    · congr 1
      refine Finset.sum_congr rfl fun c hc => ?_
      rw [if_pos ⟨ha', Finset.mem_range.mp hc⟩, ht2 c (Finset.mem_range.mp hc)]
      ring
    · rw [Finset.sum_add_distrib, ← Finset.mul_sum, hB2 a b ha' hb', hKey b hb']
      ring
  · rw [hb']
    rw [if_neg (by omega), if_pos ⟨ha', rfl⟩, if_neg (by omega)]
    trans (∑ c ∈ Finset.range m, (B a c * g c m +
        (∑ e ∈ Finset.range m, B a e * g e m) /
          (g m m - ∑ e ∈ Finset.range m, g m e *
            ∑ c' ∈ Finset.range m, B e c' * g c' m) *
          ((∑ e ∈ Finset.range m, B c e * g e m) * g c m))) +
      -(∑ e ∈ Finset.range m, B a e * g e m) /
          (g m m - ∑ e ∈ Finset.range m, g m e *
            ∑ c' ∈ Finset.range m, B e c' * g c' m) * g m m
    · congr 1
      refine Finset.sum_congr rfl fun c hc => ?_
      rw [if_pos ⟨ha', Finset.mem_range.mp hc⟩, ht2 c (Finset.mem_range.mp hc)]
      ring
    · rw [Finset.sum_add_distrib, ← Finset.mul_sum, hKey2]
      field_simp
      ring
  · rw [ha']
    rw [if_neg (by omega), if_neg (by omega), if_neg (by omega), if_pos ⟨rfl, rfl⟩,
      if_neg (by omega)]
    trans (∑ c ∈ Finset.range m, (-(1 /
        (g m m - ∑ e ∈ Finset.range m, g m e *
          ∑ c' ∈ Finset.range m, B e c' * g c' m))) *
        ((∑ e ∈ Finset.range m, B c e * g e m) * g c b)) +
      1 / (g m m - ∑ e ∈ Finset.range m, g m e *
        ∑ c' ∈ Finset.range m, B e c' * g c' m) * g m b
    · congr 1
      refine Finset.sum_congr rfl fun c hc => ?_
      rw [if_neg (by omega), if_neg (by omega),
        if_pos ⟨rfl, Finset.mem_range.mp hc⟩, ht2 c (Finset.mem_range.mp hc)]
      ring
    · rw [← Finset.mul_sum, hKey b hb']
      ring
  · rw [ha', hb']
    rw [if_neg (by omega), if_neg (by omega), if_neg (by omega), if_pos ⟨rfl, rfl⟩,
      if_pos rfl]
    trans (∑ c ∈ Finset.range m, (-(1 /
        (g m m - ∑ e ∈ Finset.range m, g m e *
          ∑ c' ∈ Finset.range m, B e c' * g c' m))) *
        ((∑ e ∈ Finset.range m, B c e * g e m) * g c m)) +
      1 / (g m m - ∑ e ∈ Finset.range m, g m e *
        ∑ c' ∈ Finset.range m, B e c' * g c' m) * g m m
    · congr 1
      refine Finset.sum_congr rfl fun c hc => ?_
      rw [if_neg (by omega), if_neg (by omega),
        if_pos ⟨rfl, Finset.mem_range.mp hc⟩, ht2 c (Finset.mem_range.mp hc)]
      ring
    · rw [← Finset.mul_sum, hKey2]
      field_simp
      ring

/-- The central Schur-sampler invariant: at the start of each step `n` of a
valid run on a symmetric kernel, the stored block `K1` is symmetric, it is
a right inverse of the Gram block of the selected indices, and the `schur`
vector holds `K[x,x] - K[x,Y] K1 K[Y,x]` on the remaining set. -/
theorem schur_invariant {N : ℕ} [NeZero N] {K : Matrix (Fin N) (Fin N) ℝ}
    (hsym : IsSymKernel K) {size : ℕ} {choose : ℕ → Fin N}
    (hvalid : schurValid K size choose) :
    ∀ n < size,
      (∀ a b, a < n → b < n → (schurRun K size choose n).K1 a b =
        (schurRun K size choose n).K1 b a) ∧
      (∀ a b, a < n → b < n →
        ∑ c ∈ Finset.range n, (schurRun K size choose n).K1 a c *
          K ((schurRun K size choose n).samp c) ((schurRun K size choose n).samp b)
          = if a = b then 1 else 0) ∧
      (∀ x ∈ (schurRun K size choose n).rem,
        (schurRun K size choose n).schur x =
          K x x - schurQuad K (schurRun K size choose n).samp
            (schurRun K size choose n).K1 n x) := by
  intro n
  induction n with
  | zero =>
    intro _
    exact ⟨by omega, by omega, fun x _ => by simp [schurRun, schurInit, schurQuad]⟩
  | succ m ih =>
    intro hm1
    have hmlt : m < size := by omega
    obtain ⟨hS1, hS2, hS3⟩ := ih hmlt
    obtain ⟨hjmem, hjnz⟩ := hvalid m hmlt
    have hfull : ¬ (2 ≤ m ∧ ¬ m < size - 1) := by omega
    have hrun1 : schurRun K size choose (m + 1) =
        schurStep K size (schurRun K size choose m) m (choose m) := rfl
    -- the residual formula is re-established definitionally by the update
    have hS3' : ∀ x ∈ (schurRun K size choose (m + 1)).rem,
        (schurRun K size choose (m + 1)).schur x =
          K x x - schurQuad K (schurRun K size choose (m + 1)).samp
            (schurRun K size choose (m + 1)).K1 (m + 1) x := by
      intro x hx
      rw [schurRun_rem_succ] at hx
      rw [hrun1, schurStep_schur_mem K size _ m (choose m) hfull x hx,
        schurStep_samp]
    refine ⟨?_, ?_, hS3'⟩ <;> rcases Nat.lt_or_ge m 2 with hm2 | hm2
    -- symmetry of the stored block
    · interval_cases m
      · intro a b ha hb
        interval_cases a <;> interval_cases b <;> rfl
      · intro a b ha hb
        rw [hrun1, schurStep_K1_one]
        interval_cases a <;> interval_cases b <;> rfl
    · intro a b ha hb
      rw [hrun1, schurStep_K1_wood K size _ m (choose m) hm2 (by omega)]
      dsimp only
      have h2 : ∀ e, e < m →
          (∑ c ∈ Finset.range m,
            K (choose m) (Function.update (schurRun K size choose m).samp m (choose m) c) *
              (schurRun K size choose m).K1 c e) =
          ∑ c ∈ Finset.range m, (schurRun K size choose m).K1 e c *
            K (Function.update (schurRun K size choose m).samp m (choose m) c) (choose m) := by
        intro e he
        refine Finset.sum_congr rfl fun c hc => ?_
        have hc' := Finset.mem_range.mp hc
        rw [hS1 c e hc' he, symm_point (N := N) hsym (choose m)
          (Function.update (schurRun K size choose m).samp m (choose m) c)]
        ring
      rcases Nat.lt_succ_iff_lt_or_eq.mp ha with ha' | ha' <;>
        rcases Nat.lt_succ_iff_lt_or_eq.mp hb with hb' | hb'
      · rw [if_pos ⟨ha', hb'⟩, if_pos ⟨hb', ha'⟩, hS1 a b ha' hb', h2 b hb', h2 a ha']
        ring
      · subst hb'
        rw [if_neg (by omega), if_pos ⟨ha', rfl⟩, if_neg (by omega),
          if_neg (by omega), if_pos ⟨rfl, ha'⟩, h2 a ha']
        ring
      · subst ha'
        rw [if_neg (by omega), if_neg (by omega), if_pos ⟨rfl, hb'⟩,
          if_neg (by omega), if_pos ⟨hb', rfl⟩, h2 b hb']
        ring
      · subst ha'; subst hb'; rfl
    -- right-inverse identity
    · interval_cases m
      · intro a b ha hb
        interval_cases a <;> interval_cases b
        have hk : K (choose 0) (choose 0) ≠ 0 := by
          have h := hjnz
          simpa [schurRun, schurInit] using h
        rw [hrun1]
        have hsampz : (schurStep K size (schurRun K size choose 0) 0 (choose 0)).samp 0
            = choose 0 := by
          rw [schurStep_samp]
          exact Function.update_same _ _ _
        rw [Finset.sum_range_one, hsampz, schurStep_K1_zero]
        simp
        exact inv_mul_cancel₀ hk
      · intro a b ha hb
        -- m = 1 : the closed-form 2x2 inverse for a symmetric kernel
        have hi0 : (schurRun K size choose 1).samp 0 = choose 0 :=
          schurRun_samp_stable K size choose (by omega)
        have hK00 : K (choose 0) (choose 0) ≠ 0 := by
          have h := (hvalid 0 (by omega)).2
          simpa [schurRun, schurInit] using h
        have hsymk : K (choose 0) (choose 1) = K (choose 1) (choose 0) :=
          symm_point (N := N) hsym _ _
        have hq : (schurRun K size choose 1).schur (choose 1) =
            K (choose 1) (choose 1) -
              K (choose 1) (choose 0) * (1 / K (choose 0) (choose 0)) *
                K (choose 0) (choose 1) := by
          have h := hS3 (choose 1) hjmem
          rw [h, schurQuad, Finset.sum_range_one, Finset.sum_range_one, hi0]
          have hK1z : (schurRun K size choose 1).K1 0 0 = 1 / K (choose 0) (choose 0) := by
            have : schurRun K size choose 1 =
                schurStep K size (schurRun K size choose 0) 0 (choose 0) := rfl
            rw [this, schurStep_K1_zero]
            simp [schurRun, schurInit]
          rw [hK1z]
        have hdet : K (choose 0) (choose 0) * K (choose 1) (choose 1) -
            K (choose 1) (choose 0) ^ 2 =
            K (choose 0) (choose 0) * (schurRun K size choose 1).schur (choose 1) := by
          rw [hq, hsymk]
          field_simp
          ring
        have hdetnz : K (choose 0) (choose 0) * K (choose 1) (choose 1) -
            K (choose 1) (choose 0) ^ 2 ≠ 0 := by
          rw [hdet]
          exact mul_ne_zero hK00 hjnz
        rw [hrun1, schurStep_K1_one, schurStep_samp]
        have hu0 : Function.update (schurRun K size choose 1).samp 1 (choose 1) 0
            = choose 0 := by
          rw [Function.update_noteq (by omega)]
          exact hi0
        have hu1 : Function.update (schurRun K size choose 1).samp 1 (choose 1) 1
            = choose 1 := Function.update_same _ _ _
        interval_cases a <;> interval_cases b <;>
          · simp [Finset.sum_range_succ, Finset.sum_range_one, hi0, hu0, hu1, hsymk]
            field_simp
            ring
    · -- Woodbury case: the stored update is the rank-one inverse update
      intro a b ha hb
      have hjm : ∀ e, e < m →
          Function.update (schurRun K size choose m).samp m (choose m) e =
            (schurRun K size choose m).samp e := by
        intro e he
        exact Function.update_noteq (by omega) _ _
      have hS2u : ∀ a b, a < m → b < m →
          ∑ c ∈ Finset.range m, (schurRun K size choose m).K1 a c *
            K (Function.update (schurRun K size choose m).samp m (choose m) c)
              (Function.update (schurRun K size choose m).samp m (choose m) b)
            = if a = b then 1 else 0 := by
        intro a b ha hb
        rw [← hS2 a b ha hb]
        refine Finset.sum_congr rfl fun c hc => ?_
        rw [hjm c (Finset.mem_range.mp hc), hjm b hb]
      have hquad : ∑ e ∈ Finset.range m,
          K (choose m) (Function.update (schurRun K size choose m).samp m (choose m) e) *
            ∑ c ∈ Finset.range m, (schurRun K size choose m).K1 e c *
              K (Function.update (schurRun K size choose m).samp m (choose m) c) (choose m)
          = schurQuad K (schurRun K size choose m).samp (schurRun K size choose m).K1 m
              (choose m) := by
        rw [schurQuad]
        refine Finset.sum_congr rfl fun e he => ?_
        rw [Finset.mul_sum]
        refine Finset.sum_congr rfl fun c hc => ?_
        rw [hjm e (Finset.mem_range.mp he), hjm c (Finset.mem_range.mp hc)]
        ring
      have hdnz : K (choose m) (choose m) - (∑ e ∈ Finset.range m,
          K (choose m) (Function.update (schurRun K size choose m).samp m (choose m) e) *
            ∑ c ∈ Finset.range m, (schurRun K size choose m).K1 e c *
              K (Function.update (schurRun K size choose m).samp m (choose m) c) (choose m))
          ≠ 0 := by
        rw [hquad, ← hS3 (choose m) hjmem]
        exact hjnz
      have hdnz2 : K (Function.update (schurRun K size choose m).samp m (choose m) m)
            (Function.update (schurRun K size choose m).samp m (choose m) m) -
          (∑ e ∈ Finset.range m,
            K (Function.update (schurRun K size choose m).samp m (choose m) m)
              (Function.update (schurRun K size choose m).samp m (choose m) e) *
              ∑ c ∈ Finset.range m, (schurRun K size choose m).K1 e c *
                K (Function.update (schurRun K size choose m).samp m (choose m) c)
                  (Function.update (schurRun K size choose m).samp m (choose m) m))
          ≠ 0 := by
        simp only [Function.update_same]
        exact hdnz
      have main := wood_inverse_step m
        (fun x y => K (Function.update (schurRun K size choose m).samp m (choose m) x)
          (Function.update (schurRun K size choose m).samp m (choose m) y))
        (schurRun K size choose m).K1
        (fun x y => symm_point (N := N) hsym _ _) hS1 hS2u hdnz2 a b ha hb
      rw [hrun1, schurStep_K1_wood K size _ m (choose m) hm2 (by omega), schurStep_samp]
      dsimp only
      simpa only [Function.update_same] using main

theorem schurRun_rem_eq {N : ℕ} [NeZero N] (K : Matrix (Fin N) (Fin N) F)
    (size : ℕ) (choose : ℕ → Fin N) (n : ℕ) :
    (schurRun K size choose n).rem =
      Finset.univ \ (Finset.range n).image choose := by
  induction n with
  | zero => simp [schurRun, schurInit]
  | succ m ih =>
    rw [schurRun_rem_succ, ih, Finset.range_succ, Finset.image_insert,
      Finset.sdiff_insert]

/-- For a symmetric projection kernel, if `B` is a symmetric right inverse
of the Gram block of the points `s 0 .. s (it-1)`, then the residual
`K x x - K[x,Y] B K[Y,x]` is the diagonal of the symmetric idempotent
`K - M`: it is nonnegative everywhere, vanishes on the selected points,
and sums to `trace K - it` over the whole ground set. -/
theorem proj_residual_diag {N : ℕ} {K : Matrix (Fin N) (Fin N) ℝ}
    (hsym : IsSymKernel K) (hproj : IsProjKernel K) (it : ℕ)
    (s : ℕ → Fin N) (B : ℕ → ℕ → ℝ)
    (hB1 : ∀ a b, a < it → b < it → B a b = B b a)
    (hB2 : ∀ a b, a < it → b < it →
      ∑ c ∈ Finset.range it, B a c * K (s c) (s b) = if a = b then 1 else 0) :
    (∀ x : Fin N, 0 ≤ K x x - schurQuad K s B it x) ∧
    (∀ t, t < it → K (s t) (s t) - schurQuad K s B it (s t) = 0) ∧
    (∑ x : Fin N, (K x x - schurQuad K s B it x) = Matrix.trace K - it) := by
  obtain ⟨M, hMapp⟩ : ∃ M : Matrix (Fin N) (Fin N) ℝ, ∀ x y, M x y =
      ∑ a ∈ Finset.range it, ∑ b ∈ Finset.range it,
        K x (s a) * B a b * K (s b) y :=
    ⟨Matrix.of fun x y => ∑ a ∈ Finset.range it, ∑ b ∈ Finset.range it,
      K x (s a) * B a b * K (s b) y, fun x y => rfl⟩
  have hquadM : ∀ x, schurQuad K s B it x = M x x := by
    intro x
    rw [hMapp]
    rfl
  have hpullR : ∀ (f : Fin N → ℝ) (x : Fin N),
      ∑ z : Fin N, M x z * f z =
        ∑ a ∈ Finset.range it, ∑ b ∈ Finset.range it,
          K x (s a) * B a b * ∑ z : Fin N, K (s b) z * f z := by
    intro f x
    have h1 : ∀ z : Fin N, M x z * f z =
        ∑ a ∈ Finset.range it, ∑ b ∈ Finset.range it,
          K x (s a) * B a b * (K (s b) z * f z) := by
      intro z
      rw [hMapp, Finset.sum_mul]
      refine Finset.sum_congr rfl fun a _ => ?_
      rw [Finset.sum_mul]
      exact Finset.sum_congr rfl fun b _ => by ring
    rw [Finset.sum_congr rfl fun z _ => h1 z, Finset.sum_comm]
    refine Finset.sum_congr rfl fun a _ => ?_
    rw [Finset.sum_comm]
    exact Finset.sum_congr rfl fun b _ => (Finset.mul_sum _ _ _).symm
  have hpullL : ∀ (f : Fin N → ℝ) (y : Fin N),
      ∑ z : Fin N, f z * M z y =
        ∑ a ∈ Finset.range it, ∑ b ∈ Finset.range it,
          (∑ z : Fin N, f z * K z (s a)) * B a b * K (s b) y := by
    intro f y
    have h1 : ∀ z : Fin N, f z * M z y =
        ∑ a ∈ Finset.range it, ∑ b ∈ Finset.range it,
          f z * K z (s a) * B a b * K (s b) y := by
      intro z
      rw [hMapp, Finset.mul_sum]
      refine Finset.sum_congr rfl fun a _ => ?_
      rw [Finset.mul_sum]
      exact Finset.sum_congr rfl fun b _ => by ring
    rw [Finset.sum_congr rfl fun z _ => h1 z, Finset.sum_comm]
    refine Finset.sum_congr rfl fun a _ => ?_
    rw [Finset.sum_comm]
    refine Finset.sum_congr rfl fun b _ => ?_
    rw [← Finset.sum_mul, ← Finset.sum_mul]
  have hMrow : ∀ t, t < it → ∀ y, M (s t) y = K (s t) y := by
    intro t ht y
    rw [hMapp, Finset.sum_comm]
    have h1 : ∀ b ∈ Finset.range it,
        ∑ a ∈ Finset.range it, K (s t) (s a) * B a b * K (s b) y
          = (if b = t then 1 else 0) * K (s b) y := by
      intro b hb
      rw [← Finset.sum_mul]
      congr 1
      rw [← hB2 b t (Finset.mem_range.mp hb) ht]
      refine Finset.sum_congr rfl fun a ha => ?_
      rw [hB1 a b (Finset.mem_range.mp ha) (Finset.mem_range.mp hb),
        symm_point hsym (s t) (s a)]
      ring
    rw [Finset.sum_congr rfl h1]
    simp only [ite_mul, one_mul, zero_mul]
    rw [Finset.sum_ite_eq' (Finset.range it) t fun b => K (s b) y,
      if_pos (Finset.mem_range.mpr ht)]
  have htrM : ∑ x : Fin N, M x x = (it : ℝ) := by
    rw [Finset.sum_congr rfl fun x _ => hMapp x x, Finset.sum_comm]
    have h2 : ∀ a ∈ Finset.range it,
        ∑ x : Fin N, ∑ b ∈ Finset.range it, K x (s a) * B a b * K (s b) x
          = if a = a then 1 else 0 := by
      intro a ha
      rw [Finset.sum_comm, ← hB2 a a (Finset.mem_range.mp ha) (Finset.mem_range.mp ha)]
      refine Finset.sum_congr rfl fun b hb => ?_
      have h3 : ∀ x : Fin N, K x (s a) * B a b * K (s b) x =
          B a b * (K (s b) x * K x (s a)) := fun x => by ring
      rw [Finset.sum_congr rfl fun x _ => h3 x, ← Finset.mul_sum,
        mul_point hproj (s b) (s a)]
    rw [Finset.sum_congr rfl h2]
    simp
  have hKM : K * M = M := by
    ext x y
    rw [Matrix.mul_apply, hpullL (fun z => K x z) y, hMapp]
    refine Finset.sum_congr rfl fun a _ => ?_
    refine Finset.sum_congr rfl fun b _ => ?_
    rw [mul_point hproj x (s a)]
  have hMK : M * K = M := by
    ext x y
    rw [Matrix.mul_apply, hpullR (fun z => K z y) x, hMapp]
    refine Finset.sum_congr rfl fun a _ => ?_
    refine Finset.sum_congr rfl fun b _ => ?_
    rw [mul_point hproj (s b) y]
  have hMM : M * M = M := by
    ext x y
    rw [Matrix.mul_apply, hpullR (fun z => M z y) x, hMapp]
    refine Finset.sum_congr rfl fun a _ => ?_
    refine Finset.sum_congr rfl fun b hb => ?_
    have h4 : ∑ z : Fin N, K (s b) z * M z y = M (s b) y := by
      have h := congrFun (congrFun hKM (s b)) y
      rwa [Matrix.mul_apply] at h
    rw [h4, hMrow b (Finset.mem_range.mp hb) y]
  have hMsymm : Mᵀ = M := by
    ext x y
    rw [Matrix.transpose_apply, hMapp y x, hMapp x y, Finset.sum_comm]
    refine Finset.sum_congr rfl fun p hp => Finset.sum_congr rfl fun q hq => ?_
    rw [hB1 q p (Finset.mem_range.mp hq) (Finset.mem_range.mp hp),
      symm_point hsym y (s q), symm_point hsym (s p) x]
    ring
  have hEsym : (K - M)ᵀ = K - M := by
    rw [Matrix.transpose_sub, hsym, hMsymm]
  have hEidem : (K - M) * (K - M) = K - M := by
    rw [Matrix.sub_mul, Matrix.mul_sub, Matrix.mul_sub, hproj, hKM, hMK, hMM]
    abel
  refine ⟨?_, ?_, ?_⟩
  · intro x
    have h := symm_idem_diag_nonneg hEsym hEidem x
    rw [hquadM x]
    simpa [Matrix.sub_apply] using h
  · intro t ht
    rw [hquadM, hMrow t ht (s t), sub_self]
  · have h5 : ∀ x : Fin N, K x x - schurQuad K s B it x = K x x - M x x :=
      fun x => by rw [hquadM]
    rw [Finset.sum_congr rfl fun x _ => h5 x, Finset.sum_sub_distrib, htrM]
    rfl

/-- The Schur conditional-probability invariant: at the start of every
step `it` of a valid run on a symmetric projection kernel of exact
integer trace `r`, the Schur residuals of the remaining indices are
nonnegative and sum to `r - it`, so the selection weights
`|schur| / (r - it)` sum to `1`. -/
theorem schur_residual_sum {N : ℕ} [NeZero N] {K : Matrix (Fin N) (Fin N) ℝ}
    (hsym : IsSymKernel K) (hproj : IsProjKernel K) {r size : ℕ}
    (htrace : Matrix.trace K = (r : ℝ)) (hsize : size ≤ r)
    {choose : ℕ → Fin N} (hvalid : schurValid K size choose) :
    ∀ it < size,
      (∑ x ∈ (schurRun K size choose it).rem,
        (schurRun K size choose it).schur x = (r : ℝ) - it) ∧
      (∀ x ∈ (schurRun K size choose it).rem,
        0 ≤ (schurRun K size choose it).schur x) ∧
      (∑ x ∈ (schurRun K size choose it).rem,
        |(schurRun K size choose it).schur x| / ((r : ℝ) - it) = 1) := by
  intro it hit
  obtain ⟨hS1, hS2, hS3⟩ := schur_invariant hsym hvalid it hit
  obtain ⟨hnn, hsel, hall⟩ := proj_residual_diag hsym hproj it
    (schurRun K size choose it).samp (schurRun K size choose it).K1 hS1 hS2
  have himg : ∑ x ∈ (Finset.range it).image choose,
      (K x x - schurQuad K (schurRun K size choose it).samp
        (schurRun K size choose it).K1 it x) = 0 := by
    refine Finset.sum_eq_zero fun x hx => ?_
    obtain ⟨t, ht, rfl⟩ := Finset.mem_image.mp hx
    have ht' := Finset.mem_range.mp ht
    rw [← schurRun_samp_stable K size choose ht']
    exact hsel t ht'
  have hsum1 : ∑ x ∈ (schurRun K size choose it).rem,
      (schurRun K size choose it).schur x = (r : ℝ) - it := by
    rw [Finset.sum_congr rfl hS3, schurRun_rem_eq,
      Finset.sum_sdiff_eq_sub (Finset.subset_univ _), himg, sub_zero, hall,
      htrace]
  have hnn1 : ∀ x ∈ (schurRun K size choose it).rem,
      0 ≤ (schurRun K size choose it).schur x := by
    intro x hx
    rw [hS3 x hx]
    exact hnn x
  refine ⟨hsum1, hnn1, ?_⟩
  have hpos : (0 : ℝ) < (r : ℝ) - it := by
    have : (it : ℝ) < (r : ℝ) := by
      exact_mod_cast lt_of_lt_of_le hit hsize
    linarith
  rw [Finset.sum_congr rfl fun x hx => by rw [abs_of_nonneg (hnn1 x hx)],
    ← Finset.sum_div, hsum1, div_self (ne_of_gt hpos)]

/-! ## The Cholesky bridge: the pivoted state tracks the Schur chain -/

theorem hermitianSwap_id_lower {N : ℕ} {α : Type*} (A : Matrix (Fin N) (Fin N) α)
    (j t : Fin N) (hjt : j ≤ t) (p q : Fin N) (hqp : q ≤ p) :
    hermitianSwap id id A j t p q =
      if Equiv.swap j t q ≤ Equiv.swap j t p then
        A (Equiv.swap j t p) (Equiv.swap j t q)
      else A (Equiv.swap j t q) (Equiv.swap j t p) := by
  rcases lt_or_eq_of_le hjt with hlt | heq
  · rw [hermitianSwap_apply_lower id id A j t hlt p q hqp]
    by_cases h1 : p = q ∧ (p = j ∨ p = t)
    · rw [if_pos h1, ← h1.1, if_pos le_rfl]
      rfl
    · rw [if_neg h1]
      simp only [id_eq]
  · rw [← heq, hermitianSwap_self, Equiv.swap_self]
    simp only [Equiv.refl_apply, id_eq]
    rw [if_pos hqp]
    split
    · rename_i h
      rw [h.1, h.2]
    · rfl

theorem cholRun_succ {N : ℕ} (sqrt : F → F) (K : Matrix (Fin N) (Fin N) F)
    (size : ℕ) (choose : ℕ → Fin N) (n : ℕ) (h : n < N) :
    cholRun sqrt K size choose (n + 1) =
      cholStep sqrt size (cholRun sqrt K size choose n) ⟨n, h⟩ (choose n) := by
  rw [cholRun, dif_pos h]

theorem cholStep_g {N : ℕ} (sqrt : F → F) (size : ℕ) (st : CholState N F)
    (jpos t : Fin N) :
    (cholStep sqrt size st jpos t).g = st.g * Equiv.swap jpos t := by
  unfold cholStep
  split <;> rfl

theorem cholStep_full {N : ℕ} (sqrt : F → F) (size : ℕ) (st : CholState N F)
    (jpos t : Fin N) (h : ¬ (jpos : ℕ) = size - 1) :
    cholStep sqrt size st jpos t =
      ⟨cholColUpdate (cholPivotA sqrt st jpos t) jpos,
        fun p => if jpos < p then
          st.d (Equiv.swap jpos t p) -
            (cholColUpdate (cholPivotA sqrt st jpos t) jpos p jpos) ^ 2
        else st.d (Equiv.swap jpos t p),
        st.g * Equiv.swap jpos t⟩ := by
  unfold cholStep
  rw [if_neg h]

theorem cholPiv_eq {N : ℕ} [NeZero N] (sqrt : F → F) (K : Matrix (Fin N) (Fin N) F)
    (size : ℕ) (choose : ℕ → Fin N) (n : ℕ) (h : n < N) :
    cholPiv sqrt K size choose n = (cholRun sqrt K size choose n).g (choose n) := by
  unfold cholPiv
  rw [dif_pos h, cholRun_succ sqrt K size choose n h, cholStep_g,
    Equiv.Perm.mul_apply, Equiv.swap_apply_left]

theorem sum_val_filter_lt {N n : ℕ} (jp : Fin N) (hj : (jp : ℕ) = n) (f : ℕ → ℝ) :
    ∑ s ∈ Finset.univ.filter (fun s : Fin N => s < jp), f (s : ℕ) =
      ∑ k ∈ Finset.range n, f k := by
  have hnN : n ≤ N := by
    have := jp.isLt
    omega
  rw [Finset.sum_filter]
  have h1 : ∀ s : Fin N, (if s < jp then f (s : ℕ) else 0) =
      (if (s : ℕ) < n then f (s : ℕ) else 0) := by
    intro s
    have : s < jp ↔ (s : ℕ) < n := by rw [Fin.lt_def, hj]
    simp [this]
  rw [Finset.sum_congr rfl fun s _ => h1 s,
    Fin.sum_univ_eq_sum_range (fun k => if k < n then f k else 0) N,
    ← Finset.sum_filter]
  congr 1
  ext k
  simp only [Finset.mem_filter, Finset.mem_range]
  omega

/-- The central Cholesky invariant: at the start of each step `n` of a
valid run on a symmetric projection kernel, all earlier chain pivots were
nonzero, the first `n` ground-set entries are the pivot indices, the
trailing diagonal residuals are the chain diagonal at the permuted
indices, the trailing lower block of `A` is the permuted original kernel,
and the first `n` columns of the trailing rows are the chain's normalised
pivot columns. -/
theorem chol_invariant {N : ℕ} [NeZero N] {K : Matrix (Fin N) (Fin N) ℝ}
    (hsym : IsSymKernel K) (hproj : IsProjKernel K) {size : ℕ} (hsN : size ≤ N)
    {choose : ℕ → Fin N} (hvalid : cholValid Real.sqrt K size choose) :
    ∀ n < size,
      (∀ k < n, schurChain K (cholPiv Real.sqrt K size choose) k
        (cholPiv Real.sqrt K size choose k) (cholPiv Real.sqrt K size choose k) ≠ 0) ∧
      (∀ p : Fin N, (p : ℕ) < n →
        (cholRun Real.sqrt K size choose n).g p =
          cholPiv Real.sqrt K size choose (p : ℕ)) ∧
      (∀ p : Fin N, n ≤ (p : ℕ) →
        (cholRun Real.sqrt K size choose n).d p =
          schurChain K (cholPiv Real.sqrt K size choose) n
            ((cholRun Real.sqrt K size choose n).g p)
            ((cholRun Real.sqrt K size choose n).g p)) ∧
      (∀ p q : Fin N, n ≤ (q : ℕ) → q ≤ p →
        (cholRun Real.sqrt K size choose n).A p q =
          K ((cholRun Real.sqrt K size choose n).g p)
            ((cholRun Real.sqrt K size choose n).g q)) ∧
      (∀ p s : Fin N, (s : ℕ) < n → n ≤ (p : ℕ) →
        (cholRun Real.sqrt K size choose n).A p s =
          uVec K (cholPiv Real.sqrt K size choose) (s : ℕ)
            ((cholRun Real.sqrt K size choose n).g p)) := by
  intro n
  induction n with
  | zero =>
    intro _
    exact ⟨by omega, by omega, fun p _ => rfl, fun p q _ _ => rfl, by omega⟩
  | succ m ih =>
    intro hm1
    have hmlt : m < size := by omega
    obtain ⟨hPv, hG, hD, hA, hU⟩ := ih hmlt
    have hmN : m < N := by omega
    obtain ⟨htm, htnz⟩ := hvalid m hmlt
    have hjple : (⟨m, hmN⟩ : Fin N) ≤ choose m := by
      rw [Fin.le_def]
      exact htm
    have hpsm : cholPiv Real.sqrt K size choose m =
        (cholRun Real.sqrt K size choose m).g (choose m) :=
      cholPiv_eq Real.sqrt K size choose m hmN
    have hchain_m : schurChain K (cholPiv Real.sqrt K size choose) m
        (cholPiv Real.sqrt K size choose m)
        (cholPiv Real.sqrt K size choose m) ≠ 0 := by
      rw [hpsm, ← hD (choose m) htm]
      exact htnz
    have hPv' : ∀ k < m + 1, schurChain K (cholPiv Real.sqrt K size choose) k
        (cholPiv Real.sqrt K size choose k) (cholPiv Real.sqrt K size choose k) ≠ 0 := by
      intro k hk
      rcases Nat.lt_succ_iff_lt_or_eq.mp hk with hk' | hk'
      · exact hPv k hk'
      · rw [hk']
        exact hchain_m
    obtain ⟨hs, hi, _, _⟩ :=
      schurChain_facts hsym hproj (cholPiv Real.sqrt K size choose) m hPv
    have hpos : 0 < schurChain K (cholPiv Real.sqrt K size choose) m
        (cholPiv Real.sqrt K size choose m) (cholPiv Real.sqrt K size choose m) :=
      lt_of_le_of_ne (symm_idem_diag_nonneg hs hi _) (Ne.symm hchain_m)
    have hfull : ¬ ((⟨m, hmN⟩ : Fin N) : ℕ) = size - 1 := by
      show ¬ m = size - 1
      omega
    have hrun1 : cholRun Real.sqrt K size choose (m + 1) =
        cholStep Real.sqrt size (cholRun Real.sqrt K size choose m) ⟨m, hmN⟩
          (choose m) :=
      cholRun_succ Real.sqrt K size choose m hmN
    have hstep := cholStep_full Real.sqrt size (cholRun Real.sqrt K size choose m)
      ⟨m, hmN⟩ (choose m) hfull
    have hswap_ge : ∀ x : Fin N, m ≤ (x : ℕ) →
        m ≤ ((Equiv.swap (⟨m, hmN⟩ : Fin N) (choose m) x : Fin N) : ℕ) := by
      intro x hx
      rcases eq_or_ne x ⟨m, hmN⟩ with rfl | hxj
      · rw [Equiv.swap_apply_left]
        exact htm
      · rcases eq_or_ne x (choose m) with rfl | hxt
        · rw [Equiv.swap_apply_right]
        · rw [Equiv.swap_apply_of_ne_of_ne hxj hxt]
          exact hx
    have hswap_lt : ∀ x : Fin N, (x : ℕ) < m →
        Equiv.swap (⟨m, hmN⟩ : Fin N) (choose m) x = x := by
      intro x hx
      refine Equiv.swap_apply_of_ne_of_ne ?_ ?_
      · intro hc
        rw [hc] at hx
        have hx2 : m < m := hx
        omega
      · intro hc
        have hx' : (choose m : ℕ) < m := by
          rw [← hc]
          exact hx
        omega
    have hA2low : ∀ p q : Fin N, m ≤ (q : ℕ) → q ≤ p →
        ¬ (p = ⟨m, hmN⟩ ∧ q = ⟨m, hmN⟩) →
        cholPivotA Real.sqrt (cholRun Real.sqrt K size choose m) ⟨m, hmN⟩
          (choose m) p q =
          K ((cholRun Real.sqrt K size choose m).g
              (Equiv.swap (⟨m, hmN⟩ : Fin N) (choose m) p))
            ((cholRun Real.sqrt K size choose m).g
              (Equiv.swap (⟨m, hmN⟩ : Fin N) (choose m) q)) := by
      intro p q hq hqp hne
      have hp : m ≤ (p : ℕ) := le_trans hq (Fin.le_def.mp hqp)
      simp only [cholPivotA, Matrix.of_apply]
      rw [if_neg hne, hermitianSwap_id_lower _ _ _ hjple p q hqp]
      split
      · rename_i hle
        exact hA _ _ (hswap_ge q hq) hle
      · rename_i hnle
        rw [hA _ _ (hswap_ge p hp) (le_of_not_le hnle)]
        exact symm_point hsym _ _
    have hA2left : ∀ p s : Fin N, (s : ℕ) < m → m ≤ (p : ℕ) →
        cholPivotA Real.sqrt (cholRun Real.sqrt K size choose m) ⟨m, hmN⟩
          (choose m) p s =
          uVec K (cholPiv Real.sqrt K size choose) (s : ℕ)
            ((cholRun Real.sqrt K size choose m).g
              (Equiv.swap (⟨m, hmN⟩ : Fin N) (choose m) p)) := by
      intro p s hs hp
      have hsp : s ≤ p := Fin.le_def.mpr (by omega)
      have hsne : ¬ (p = ⟨m, hmN⟩ ∧ s = ⟨m, hmN⟩) := by
        rintro ⟨_, hc⟩
        rw [hc] at hs
        have hs2 : m < m := hs
        omega
      simp only [cholPivotA, Matrix.of_apply]
      rw [if_neg hsne, hermitianSwap_id_lower _ _ _ hjple p s hsp,
        hswap_lt s hs]
      have hcond : s ≤ Equiv.swap (⟨m, hmN⟩ : Fin N) (choose m) p :=
        Fin.le_def.mpr (le_trans (le_of_lt hs) (hswap_ge p hp))
      rw [if_pos hcond]
      exact hU _ s hs (hswap_ge p hp)
    have hA2piv : cholPivotA Real.sqrt (cholRun Real.sqrt K size choose m)
        ⟨m, hmN⟩ (choose m) ⟨m, hmN⟩ ⟨m, hmN⟩ =
          Real.sqrt (schurChain K (cholPiv Real.sqrt K size choose) m
            (cholPiv Real.sqrt K size choose m)
            (cholPiv Real.sqrt K size choose m)) := by
      simp only [cholPivotA, Matrix.of_apply]
      rw [if_pos ⟨trivial, trivial⟩, Equiv.swap_apply_left, hD (choose m) htm, hpsm]
    have hA3col : ∀ p : Fin N, (⟨m, hmN⟩ : Fin N) < p →
        cholColUpdate (cholPivotA Real.sqrt (cholRun Real.sqrt K size choose m)
            ⟨m, hmN⟩ (choose m)) ⟨m, hmN⟩ p ⟨m, hmN⟩ =
          uVec K (cholPiv Real.sqrt K size choose) m
            ((cholRun Real.sqrt K size choose m).g
              (Equiv.swap (⟨m, hmN⟩ : Fin N) (choose m) p)) := by
      intro p hp
      have hpval : m < (p : ℕ) := Fin.lt_def.mp hp
      have h1 : cholPivotA Real.sqrt (cholRun Real.sqrt K size choose m) ⟨m, hmN⟩
          (choose m) p ⟨m, hmN⟩ =
            K ((cholRun Real.sqrt K size choose m).g
                (Equiv.swap (⟨m, hmN⟩ : Fin N) (choose m) p))
              (cholPiv Real.sqrt K size choose m) := by
        rw [hA2low p ⟨m, hmN⟩ (le_refl m) (le_of_lt hp)
          (by rintro ⟨hc, _⟩; rw [hc] at hp; exact lt_irrefl _ hp),
          Equiv.swap_apply_left, ← hpsm]
      have hsum : ∑ s ∈ Finset.univ.filter (fun s : Fin N => s < (⟨m, hmN⟩ : Fin N)),
          cholPivotA Real.sqrt (cholRun Real.sqrt K size choose m) ⟨m, hmN⟩
              (choose m) p s *
            cholPivotA Real.sqrt (cholRun Real.sqrt K size choose m) ⟨m, hmN⟩
              (choose m) ⟨m, hmN⟩ s =
          ∑ k ∈ Finset.range m,
            uVec K (cholPiv Real.sqrt K size choose) k
                ((cholRun Real.sqrt K size choose m).g
                  (Equiv.swap (⟨m, hmN⟩ : Fin N) (choose m) p)) *
              uVec K (cholPiv Real.sqrt K size choose) k
                (cholPiv Real.sqrt K size choose m) := by
        have hterm : ∀ s ∈ Finset.univ.filter
            (fun s : Fin N => s < (⟨m, hmN⟩ : Fin N)),
            cholPivotA Real.sqrt (cholRun Real.sqrt K size choose m) ⟨m, hmN⟩
                (choose m) p s *
              cholPivotA Real.sqrt (cholRun Real.sqrt K size choose m) ⟨m, hmN⟩
                (choose m) ⟨m, hmN⟩ s =
            uVec K (cholPiv Real.sqrt K size choose) (s : ℕ)
                ((cholRun Real.sqrt K size choose m).g
                  (Equiv.swap (⟨m, hmN⟩ : Fin N) (choose m) p)) *
              uVec K (cholPiv Real.sqrt K size choose) (s : ℕ)
                (cholPiv Real.sqrt K size choose m) := by
          intro s hsf
          have hsv : (s : ℕ) < m := Fin.lt_def.mp (Finset.mem_filter.mp hsf).2
          rw [hA2left p s hsv (le_of_lt hpval), hA2left ⟨m, hmN⟩ s hsv (le_refl m),
            Equiv.swap_apply_left, ← hpsm]
        rw [Finset.sum_congr rfl hterm]
        exact sum_val_filter_lt ⟨m, hmN⟩ (rfl : ((⟨m, hmN⟩ : Fin N) : ℕ) = m)
          (fun k => uVec K (cholPiv Real.sqrt K size choose) k
              ((cholRun Real.sqrt K size choose m).g
                (Equiv.swap (⟨m, hmN⟩ : Fin N) (choose m) p)) *
            uVec K (cholPiv Real.sqrt K size choose) k
              (cholPiv Real.sqrt K size choose m))
      simp only [cholColUpdate, Matrix.of_apply]
      rw [if_pos ⟨hp, trivial⟩, h1, hA2piv, hsum,
        ← schurChain_telescope hsym hproj (cholPiv Real.sqrt K size choose) m hPv
          ((cholRun Real.sqrt K size choose m).g
            (Equiv.swap (⟨m, hmN⟩ : Fin N) (choose m) p))
          (cholPiv Real.sqrt K size choose m)]
      rfl
    have hA3ne : ∀ p q : Fin N, ¬ ((⟨m, hmN⟩ : Fin N) < p ∧ q = ⟨m, hmN⟩) →
        cholColUpdate (cholPivotA Real.sqrt (cholRun Real.sqrt K size choose m)
            ⟨m, hmN⟩ (choose m)) ⟨m, hmN⟩ p q =
          cholPivotA Real.sqrt (cholRun Real.sqrt K size choose m) ⟨m, hmN⟩
            (choose m) p q := by
      intro p q h
      simp only [cholColUpdate, Matrix.of_apply]
      rw [if_neg h]
    refine ⟨hPv', ?_, ?_, ?_, ?_⟩
    · intro p hp
      rw [hrun1, cholStep_g, Equiv.Perm.mul_apply]
      rcases Nat.lt_succ_iff_lt_or_eq.mp hp with hp' | hp'
      · rw [hswap_lt p hp', hG p hp']
      · have hpe : p = ⟨m, hmN⟩ := Fin.ext hp'
        rw [hpe, Equiv.swap_apply_left, ← hpsm]
    · intro p hp
      have hplt : (⟨m, hmN⟩ : Fin N) < p :=
        Fin.lt_def.mpr (show m < (p : ℕ) by omega)
      rw [hrun1, hstep]
      dsimp only
      rw [if_pos hplt]
      simp only [Equiv.Perm.mul_apply]
      rw [hD (Equiv.swap (⟨m, hmN⟩ : Fin N) (choose m) p) (hswap_ge p (by omega)),
        hA3col p hplt]
      show _ = schurStepM (schurChain K (cholPiv Real.sqrt K size choose) m)
        (cholPiv Real.sqrt K size choose m)
        ((cholRun Real.sqrt K size choose m).g
          (Equiv.swap (⟨m, hmN⟩ : Fin N) (choose m) p))
        ((cholRun Real.sqrt K size choose m).g
          (Equiv.swap (⟨m, hmN⟩ : Fin N) (choose m) p))
      rw [schurStepM_decomp hs hpos]
      simp only [uVec]
      ring
    · intro p q hq hqp
      have hqj : ¬ ((⟨m, hmN⟩ : Fin N) < p ∧ q = ⟨m, hmN⟩) := by
        rintro ⟨_, hc⟩
        rw [hc] at hq
        have hq2 : m + 1 ≤ m := hq
        omega
      rw [hrun1, hstep]
      dsimp only
      rw [hA3ne p q hqj]
      simp only [Equiv.Perm.mul_apply]
      exact hA2low p q (by omega) hqp
        (by rintro ⟨_, hc⟩; rw [hc] at hq; exact absurd (show m + 1 ≤ m from hq) (by omega))
    · intro p s hs hp
      rw [hrun1, hstep]
      dsimp only
      simp only [Equiv.Perm.mul_apply]
      rcases Nat.lt_succ_iff_lt_or_eq.mp hs with hs' | hs'
      · have hne : ¬ ((⟨m, hmN⟩ : Fin N) < p ∧ s = ⟨m, hmN⟩) := by
          rintro ⟨_, hc⟩
          rw [hc] at hs'
          have hs2 : m < m := hs'
          omega
        rw [hA3ne p s hne]
        exact hA2left p s hs' (by omega)
      · have hse : s = ⟨m, hmN⟩ := Fin.ext hs'
        have hplt : (⟨m, hmN⟩ : Fin N) < p :=
          Fin.lt_def.mpr (show m < (p : ℕ) by omega)
        rw [hse, hA3col p hplt]

/-- The Cholesky conditional-probability invariant: at the start of every
step `it` of a valid run on a symmetric projection kernel of exact integer
trace `r`, the residuals `d` of the remaining (un-pivoted) positions are
nonnegative and sum to `r - it`, so the selection weights `|d| / (r - it)`
sum to `1`. -/
theorem chol_residual_sum {N : ℕ} [NeZero N] {K : Matrix (Fin N) (Fin N) ℝ}
    (hsym : IsSymKernel K) (hproj : IsProjKernel K) {r size : ℕ}
    (htrace : Matrix.trace K = (r : ℝ)) (hsize : size ≤ r)
    {choose : ℕ → Fin N} (hvalid : cholValid Real.sqrt K size choose) :
    ∀ it < size,
      (∑ p ∈ Finset.univ.filter (fun p : Fin N => it ≤ (p : ℕ)),
        (cholRun Real.sqrt K size choose it).d p = (r : ℝ) - it) ∧
      (∀ p : Fin N, it ≤ (p : ℕ) →
        0 ≤ (cholRun Real.sqrt K size choose it).d p) ∧
      (∑ p ∈ Finset.univ.filter (fun p : Fin N => it ≤ (p : ℕ)),
        |(cholRun Real.sqrt K size choose it).d p| / ((r : ℝ) - it) = 1) := by
  have hrN : (r : ℝ) ≤ (N : ℝ) := by
    rw [← htrace]
    exact (sym_proj_trace_bounds hsym hproj).2
  have hsN : size ≤ N := by
    have h1 : r ≤ N := by exact_mod_cast hrN
    omega
  intro it hit
  obtain ⟨hPv, hG, hD, _, _⟩ := chol_invariant hsym hproj hsN hvalid it hit
  obtain ⟨hs, hi, htr, hz⟩ :=
    schurChain_facts hsym hproj (cholPiv Real.sqrt K size choose) it hPv
  have hnn : ∀ p : Fin N, it ≤ (p : ℕ) →
      0 ≤ (cholRun Real.sqrt K size choose it).d p := by
    intro p hp
    rw [hD p hp]
    exact symm_idem_diag_nonneg hs hi _
  have hsum : ∑ p ∈ Finset.univ.filter (fun p : Fin N => it ≤ (p : ℕ)),
      (cholRun Real.sqrt K size choose it).d p = (r : ℝ) - it := by
    rw [Finset.sum_congr rfl fun p hp => hD p (Finset.mem_filter.mp hp).2]
    have hsplit := Finset.sum_filter_add_sum_filter_not Finset.univ
      (fun p : Fin N => it ≤ (p : ℕ))
      (fun p => schurChain K (cholPiv Real.sqrt K size choose) it
        ((cholRun Real.sqrt K size choose it).g p)
        ((cholRun Real.sqrt K size choose it).g p))
    have hunivg : ∑ p : Fin N,
        schurChain K (cholPiv Real.sqrt K size choose) it
          ((cholRun Real.sqrt K size choose it).g p)
          ((cholRun Real.sqrt K size choose it).g p) =
        Matrix.trace (schurChain K (cholPiv Real.sqrt K size choose) it) := by
      rw [Equiv.sum_comp (cholRun Real.sqrt K size choose it).g
        (fun x => schurChain K (cholPiv Real.sqrt K size choose) it x x)]
      rfl
    have hlow : ∑ p ∈ Finset.univ.filter (fun p : Fin N => ¬ it ≤ (p : ℕ)),
        schurChain K (cholPiv Real.sqrt K size choose) it
          ((cholRun Real.sqrt K size choose it).g p)
          ((cholRun Real.sqrt K size choose it).g p) = 0 := by
      refine Finset.sum_eq_zero fun p hp => ?_
      have hplt : (p : ℕ) < it := by
        have := (Finset.mem_filter.mp hp).2
        omega
      rw [hG p hplt]
      exact (hz (p : ℕ) hplt).1 _
    have hmain : ∑ p ∈ Finset.univ.filter (fun p : Fin N => it ≤ (p : ℕ)),
        schurChain K (cholPiv Real.sqrt K size choose) it
          ((cholRun Real.sqrt K size choose it).g p)
          ((cholRun Real.sqrt K size choose it).g p) =
        Matrix.trace (schurChain K (cholPiv Real.sqrt K size choose) it) := by
      rw [← hunivg, ← hsplit, hlow, add_zero]
    rw [hmain, htr, htrace]
  refine ⟨hsum, hnn, ?_⟩
  have hpos : (0 : ℝ) < (r : ℝ) - it := by
    have h2 : (it : ℝ) < (r : ℝ) := by
      exact_mod_cast lt_of_lt_of_le hit hsize
    linarith
  rw [Finset.sum_congr rfl fun p hp => by
      rw [abs_of_nonneg (hnn p (Finset.mem_filter.mp hp).2)],
    ← Finset.sum_div, hsum, div_self (ne_of_gt hpos)]

/-- C2 (amended to real symmetric projection kernels): for every real
symmetric projection kernel `K` with exact integer trace `r` and every
requested `size ≤ r`, in each of the three samplers, at the start of every
step `it < size` the residual quantities over the currently un-selected
candidates (`norm_2` on `rem` for GS, `d` on the un-pivoted trailing
positions for Chol, `schur` on `rem` for Schur) sum exactly to `r - it`,
so the per-step selection weights `|weight| / (r - it)` sum to `1`.
As stated for arbitrary (possibly non-symmetric) projection kernels the
claim is false: see the counterexample. -/
theorem C2_residual_sums {N : ℕ} [NeZero N] {K : Matrix (Fin N) (Fin N) ℝ}
    (hsym : IsSymKernel K) (hproj : IsProjKernel K) {r size : ℕ}
    (htrace : Matrix.trace K = (r : ℝ)) (hsize : size ≤ r)
    {chooseG chooseC chooseS : ℕ → Fin N}
    (hvG : gsValid Real.sqrt K size chooseG)
    (hvC : cholValid Real.sqrt K size chooseC)
    (hvS : schurValid K size chooseS) :
    ∀ it < size,
      (∑ x ∈ (gsRun Real.sqrt K size chooseG it).rem,
          (gsRun Real.sqrt K size chooseG it).norm2 x = (r : ℝ) - it) ∧
      (∑ x ∈ (gsRun Real.sqrt K size chooseG it).rem,
          |(gsRun Real.sqrt K size chooseG it).norm2 x| / ((r : ℝ) - it) = 1) ∧
      (∑ p ∈ Finset.univ.filter (fun p : Fin N => it ≤ (p : ℕ)),
          (cholRun Real.sqrt K size chooseC it).d p = (r : ℝ) - it) ∧
      (∑ p ∈ Finset.univ.filter (fun p : Fin N => it ≤ (p : ℕ)),
          |(cholRun Real.sqrt K size chooseC it).d p| / ((r : ℝ) - it) = 1) ∧
      (∑ x ∈ (schurRun K size chooseS it).rem,
          (schurRun K size chooseS it).schur x = (r : ℝ) - it) ∧
      (∑ x ∈ (schurRun K size chooseS it).rem,
          |(schurRun K size chooseS it).schur x| / ((r : ℝ) - it) = 1) := by
  intro it hit
  obtain ⟨hg1, _, hg3⟩ := gs_residual_sum hsym hproj htrace hsize hvG it hit
  obtain ⟨hc1, _, hc3⟩ := chol_residual_sum hsym hproj htrace hsize hvC it hit
  obtain ⟨hs1, _, hs3⟩ := schur_residual_sum hsym hproj htrace hsize hvS it hit
  exact ⟨hg1, hg3, hc1, hc3, hs1, hs3⟩

/-- C2 counterexample to the claim as stated for arbitrary projection
kernels: `obliqueK` is a projection kernel (`K² = K`) with exact integer
trace (and hence rank) `2`, yet at the start of step 0 of the Schur sampler
(the routine the dispatcher runs on non-symmetric projection kernels) the
selection weights `|schur| / (rank - 0)` over the remaining candidates sum
to `2`, not `1`. -/
theorem C2_weights_counterexample :
    IsProjKernel obliqueK ∧ kernelRank obliqueK = 2 ∧
    Matrix.trace obliqueK = ((2 : ℕ) : ℝ) ∧
    ∀ choose : ℕ → Fin 3,
      ¬ (∑ x ∈ (schurRun obliqueK 2 choose 0).rem,
          |(schurRun obliqueK 2 choose 0).schur x| /
            (((2 : ℕ) : ℝ) - ((0 : ℕ) : ℝ)) = 1) := by
  refine ⟨?_, ?_, ?_, ?_⟩
  · ext i j
    fin_cases i <;> fin_cases j <;>
      norm_num [obliqueK, Matrix.mul_apply, Fin.sum_univ_three,
        Matrix.vecHead, Matrix.vecTail, Function.comp]
  · norm_num [kernelRank, obliqueK, Matrix.trace, Matrix.diag,
      Fin.sum_univ_three]
  · norm_num [obliqueK, Matrix.trace, Matrix.diag, Fin.sum_univ_three]
  · intro choose h
    have habs1 : |(3 : ℝ)| = 3 := by norm_num
    have habs2 : |(-1 : ℝ)| = 1 := by norm_num
    norm_num [schurRun, schurInit, obliqueK, Fin.sum_univ_three,
      habs1, habs2] at h

/-- C2 witness: the `1 × 1` identity kernel is a symmetric projection
kernel of trace `1`, all three samplers' runs drawing index `0` are valid,
and the amended residual-sum invariant holds for them. -/
theorem C2_residual_sums_witness :
    IsSymKernel (1 : Matrix (Fin 1) (Fin 1) ℝ) ∧
    IsProjKernel (1 : Matrix (Fin 1) (Fin 1) ℝ) ∧
    ∀ it < 1,
      (∑ x ∈ (gsRun Real.sqrt (1 : Matrix (Fin 1) (Fin 1) ℝ) 1
            (fun _ => 0) it).rem,
          (gsRun Real.sqrt (1 : Matrix (Fin 1) (Fin 1) ℝ) 1
            (fun _ => 0) it).norm2 x = ((1 : ℕ) : ℝ) - it) ∧
      (∑ x ∈ (gsRun Real.sqrt (1 : Matrix (Fin 1) (Fin 1) ℝ) 1
            (fun _ => 0) it).rem,
          |(gsRun Real.sqrt (1 : Matrix (Fin 1) (Fin 1) ℝ) 1
            (fun _ => 0) it).norm2 x| / (((1 : ℕ) : ℝ) - it) = 1) ∧
      (∑ p ∈ Finset.univ.filter (fun p : Fin 1 => it ≤ (p : ℕ)),
          (cholRun Real.sqrt (1 : Matrix (Fin 1) (Fin 1) ℝ) 1
            (fun _ => 0) it).d p = ((1 : ℕ) : ℝ) - it) ∧
      (∑ p ∈ Finset.univ.filter (fun p : Fin 1 => it ≤ (p : ℕ)),
          |(cholRun Real.sqrt (1 : Matrix (Fin 1) (Fin 1) ℝ) 1
            (fun _ => 0) it).d p| / (((1 : ℕ) : ℝ) - it) = 1) ∧
      (∑ x ∈ (schurRun (1 : Matrix (Fin 1) (Fin 1) ℝ) 1
            (fun _ => 0) it).rem,
          (schurRun (1 : Matrix (Fin 1) (Fin 1) ℝ) 1
            (fun _ => 0) it).schur x = ((1 : ℕ) : ℝ) - it) ∧
      (∑ x ∈ (schurRun (1 : Matrix (Fin 1) (Fin 1) ℝ) 1
            (fun _ => 0) it).rem,
          |(schurRun (1 : Matrix (Fin 1) (Fin 1) ℝ) 1
            (fun _ => 0) it).schur x| / (((1 : ℕ) : ℝ) - it) = 1) := by
  have hsym : IsSymKernel (1 : Matrix (Fin 1) (Fin 1) ℝ) := Matrix.transpose_one
  have hproj : IsProjKernel (1 : Matrix (Fin 1) (Fin 1) ℝ) := one_mul 1
  have htrace : Matrix.trace (1 : Matrix (Fin 1) (Fin 1) ℝ) = ((1 : ℕ) : ℝ) := by
    simp
  have hvG : gsValid Real.sqrt (1 : Matrix (Fin 1) (Fin 1) ℝ) 1 (fun _ => 0) := by
    intro it hit
    interval_cases it
    exact ⟨by simp [gsRun, gsInit], by simp [gsRun, gsInit]⟩
  have hvC : cholValid Real.sqrt (1 : Matrix (Fin 1) (Fin 1) ℝ) 1 (fun _ => 0) := by
    intro it hit
    interval_cases it
    exact ⟨by simp, by simp [cholRun, cholInit]⟩
  have hvS : schurValid (1 : Matrix (Fin 1) (Fin 1) ℝ) 1 (fun _ => 0) := by
    intro it hit
    interval_cases it
    exact ⟨by simp [schurRun, schurInit], by simp [schurRun, schurInit]⟩
  exact ⟨hsym, hproj,
    C2_residual_sums hsym hproj htrace le_rfl hvG hvC hvS⟩

end DPPy
